import Mathlib

/-!
# Verification of the subscript-app asynchronous document-processing orchestrator

Shallow embedding of the orchestrator of `server/tasks.py` and the submission
endpoints of `server/main.py`: the document registry (SQLAlchemy `Document`
rows), the four Celery jobs (`process_document_task`, `process_batch_task`,
`merge_document_task`, `rebuild_pdf_task`), the sibling-completion merge
trigger, the identifier-uniquification rewrite, and the anti-zombie cleanup.

Strings are modelled as `List Char`; the registry as a `List Doc`; each
`db.commit()` of a job is one atomic step of a transition system.
-/

namespace Subscript

/-- Document lifecycle states, the string values assigned to
`Document.status` in `server/tasks.py` / `server/main.py`. -/
inductive St
  | queued
  | processing
  | completed
  | error
  | merging
  | updatingPdf
  deriving DecidableEq, Repr

/-- One row of the `documents` table (the fields the orchestrator reads or
writes; `server/main.py`, class `Document`). `ownerKey` stands for the
sanitized owner e-mail used to build storage paths. -/
structure Doc where
  id : Nat
  filename : List Char
  status : St
  errorMessage : Option (List Char)
  outputTxt : Option (List Char)
  outputPdf : Option (List Char)
  isContainer : Bool
  pageOrder : Nat
  directoryName : Option (List Char)
  parentId : Option Nat
  ownerKey : List Char
  deriving DecidableEq, Repr

/-- The registry: committed state of the `documents` table. -/
abbrev Reg := List Doc

/-- `db.query(Document).filter(Document.id == i).first()`. -/
def lookup (reg : Reg) (i : Nat) : Option Doc :=
  reg.find? (fun d => d.id == i)

/-- `db.query(Document).filter(Document.parent_id == p).all()`. -/
def childrenOf (reg : Reg) (p : Nat) : List Doc :=
  reg.filter (fun d => d.parentId == some p)

/-- Update (in place) every row the function touches; rows are updated by
id, mirroring attribute assignment on a fetched ORM object. -/
def updDoc (i : Nat) (f : Doc → Doc) (reg : Reg) : Reg :=
  reg.map (fun d => if d.id == i then f d else d)

/-- Update every child of `p` (ORM loop `for child in children:`). -/
def updChildren (p : Nat) (f : Doc → Doc) (reg : Reg) : Reg :=
  reg.map (fun d => if d.parentId == some p then f d else d)

/-- Update the parent row and every child row in one committed write set
(`process_batch_task` mutates parent and children, then commits once). -/
def updFamily (p : Nat) (fp fc : Doc → Doc) (reg : Reg) : Reg :=
  reg.map (fun d => if d.id == p then fp d else if d.parentId == some p then fc d else d)

section RegLemmas

theorem lookup_updDoc (reg : Reg) (i j : Nat) (f : Doc → Doc)
    (hf : ∀ d, (f d).id = d.id) :
    lookup (updDoc j f reg) i = (lookup reg i).map (fun d => if d.id == j then f d else d) := by
  unfold lookup updDoc
  rw [List.find?_map]
  have hpred : ((fun d : Doc => d.id == i) ∘ fun d => if d.id == j then f d else d)
      = (fun d : Doc => d.id == i) := by
    funext d
    by_cases h : d.id == j <;> simp [Function.comp, h, hf]
  rw [hpred]

theorem lookup_updFamily (reg : Reg) (i p : Nat) (fp fc : Doc → Doc)
    (hfp : ∀ d, (fp d).id = d.id) (hfc : ∀ d, (fc d).id = d.id) :
    lookup (updFamily p fp fc reg) i =
      (lookup reg i).map
        (fun d => if d.id == p then fp d else if d.parentId == some p then fc d else d) := by
  unfold lookup updFamily
  rw [List.find?_map]
  have hpred : ((fun d : Doc => d.id == i) ∘
      fun d => if d.id == p then fp d else if d.parentId == some p then fc d else d)
      = (fun d : Doc => d.id == i) := by
    funext d
    by_cases h : d.id == p
    · simp [Function.comp, h, hfp]
    · by_cases h2 : d.parentId == some p <;> simp [Function.comp, h, h2, hfc]
  rw [hpred]

theorem childrenOf_updDoc (reg : Reg) (p j : Nat) (f : Doc → Doc)
    (hf : ∀ d, (f d).parentId = d.parentId) :
    childrenOf (updDoc j f reg) p =
      (childrenOf reg p).map (fun d => if d.id == j then f d else d) := by
  unfold childrenOf updDoc
  rw [List.filter_map]
  have hpred : ((fun d : Doc => d.parentId == some p) ∘ fun d => if d.id == j then f d else d)
      = (fun d : Doc => d.parentId == some p) := by
    funext d
    by_cases h : d.id == j <;> simp [Function.comp, h, hf]
  rw [hpred]

theorem childrenOf_updFamily (reg : Reg) (p q : Nat) (fp fc : Doc → Doc)
    (hfp : ∀ d, (fp d).parentId = d.parentId) (hfc : ∀ d, (fc d).parentId = d.parentId) :
    childrenOf (updFamily q fp fc reg) p =
      (childrenOf reg p).map
        (fun d => if d.id == q then fp d else if d.parentId == some q then fc d else d) := by
  unfold childrenOf updFamily
  rw [List.filter_map]
  have hpred : ((fun d : Doc => d.parentId == some p) ∘
      fun d => if d.id == q then fp d else if d.parentId == some q then fc d else d)
      = (fun d : Doc => d.parentId == some p) := by
    funext d
    by_cases h : d.id == q
    · simp [Function.comp, h, hfp]
    · by_cases h2 : d.parentId == some q <;> simp [Function.comp, h, h2, hfc]
  rw [hpred]

end RegLemmas

/-! ## Strings and paths

`os.path` operations used by the tasks, on `List Char`. -/

/-- Python `lst[-n:]`: the last `n` elements. -/
def lastN (n : Nat) (l : List (List Char)) : List (List Char) :=
  l.drop (l.length - n)

/-- `"\n".join(lines)`. -/
def joinLines (lines : List (List Char)) : List Char :=
  List.intercalate ['\n'] lines

/-- `os.path.join(a, b)` for a relative second component (the only way the
server uses it). -/
def joinPath (a b : List Char) : List Char :=
  a ++ '/' :: b

/-- `os.path.basename`: everything after the last `/`. -/
def basenameOf (s : List Char) : List Char :=
  (s.reverse.takeWhile (fun c => !(c == '/'))).reverse

/-- `os.path.dirname`: everything up to the last `/`, with trailing slashes
stripped unless the head is all slashes (posixpath semantics). -/
def dirnameOf (s : List Char) : List Char :=
  let head := s.take (s.length - (basenameOf s).length)
  if head.all (fun c => c == '/') then head
  else (head.reverse.dropWhile (fun c => c == '/')).reverse

/-- `os.path.splitext(s)[0]`: drop the extension after the last `.`, provided
that dot lies in the last path component and the component is not all dots. -/
def stemOf (s : List Char) : List Char :=
  let extRev := s.reverse.takeWhile (fun c => !(c == '.'))
  if extRev.length = s.length ∨ '/' ∈ extRev then s
  else
    let stem := s.take (s.length - extRev.length - 1)
    if (basenameOf stem).all (fun c => c == '.') then s else stem

/-- `USER_DOCS_DIR` (`server/main.py`). -/
def USER_DOCS : List Char := "/app/documents".toList

/-- `documents/{owner}/` for a sanitized owner key. -/
def userDirOf (owner : List Char) : List Char :=
  joinPath USER_DOCS owner

/-- The storage directory of a document: `user_dir/{directory_name}` when a
directory name is assigned, else the user directory (fallback used by
`process_batch_task` / `merge_document_task`). -/
def docDirOf (d : Doc) : List Char :=
  match d.directoryName with
  | some dn => joinPath (userDirOf d.ownerKey) dn
  | none => userDirOf d.ownerKey

/-! ## Jobs

The Celery jobs, with the arguments each `.delay(...)` call passes and a
`started` flag marking whether the job has performed its first commit. -/

inductive Job
  | processJob (docId : Nat) (filePath : List Char) (started : Bool)
  | batchJob (parentId : Nat) (filePaths : List (List Char)) (started : Bool)
  | mergeJob (parentId : Nat) (started : Bool)
  | rebuildJob (docId : Nat) (filePath : List Char) (started : Bool)
  deriving DecidableEq, Repr

/-- The id of the document (or parent) a job works on. -/
def Job.target : Job → Nat
  | .processJob i _ _ => i
  | .batchJob p _ _ => p
  | .mergeJob p _ => p
  | .rebuildJob i _ _ => i

/-! ## `process_document_task` (tasks.py 24-213) -/

/-- First commit: `doc.status = "processing"; db.commit()` (tasks.py 32-33).
A missing document makes the task return without writing (tasks.py 28-30);
`updDoc` is then a no-op. -/
def procStartCommit (reg : Reg) (docId : Nat) : Reg :=
  updDoc docId (fun d => { d with status := .processing }) reg

/-- Success commit (tasks.py 129-131, committed at 165): status `completed`,
`output_txt_path`/`output_pdf_path` from the fixed naming convention
`{base_name}.txt` / `{base_name}.pdf` inside `output_dir = dirname(file_path)`. -/
def procSuccessCommit (reg : Reg) (docId : Nat) (filePath : List Char) : Reg :=
  let outputDir := dirnameOf filePath
  let baseName := stemOf (basenameOf filePath)
  updDoc docId
    (fun d => { d with
      status := .completed,
      outputTxt := some (joinPath outputDir (baseName ++ ".txt".toList)),
      outputPdf := some (joinPath outputDir (baseName ++ ".pdf".toList)) })
    reg

/-- Sibling-completion check run after the success commit (tasks.py 167-181):
count the parent's children and its completed children on the committed
registry, and enqueue one merge job exactly when the counts agree. -/
def siblingCheck (reg : Reg) (docId : Nat) : List Job :=
  match lookup reg docId with
  | none => []
  | some d =>
    match d.parentId with
    | none => []
    | some p =>
      match lookup reg p with
      | none => []
      | some _ =>
        let total := (childrenOf reg p).length
        let completedCount :=
          ((childrenOf reg p).filter (fun c => c.status == St.completed)).length
        if total = completedCount then [Job.mergeJob p false] else []

/-- Error detail on non-zero exit: `"\n".join(full_output[-10:])` raised as
`CalledProcessError.stderr` (tasks.py 118-120) and recorded as
`f"Subscript failed: {e.stderr}"` (tasks.py 186-187). -/
def procFailMsg (outputLines : List (List Char)) : List Char :=
  "Subscript failed: ".toList ++ joinLines (lastN 10 outputLines)

/-- Failure commit (tasks.py 183-187, committed at 199). -/
def procFailCommit (reg : Reg) (docId : Nat) (outputLines : List (List Char)) : Reg :=
  updDoc docId
    (fun d => { d with status := .error, errorMessage := some (procFailMsg outputLines) })
    reg

/-! ## Anti-zombie cleanup

The filesystem is modelled as the list of existing storage directories. -/

abbrev FS := List (List Char)

/-- `process_document_task` / `process_batch_task` finally-clause cleanup
(tasks.py 201-211 and 353-362): if the document row no longer exists,
`shutil.rmtree(output_dir)`; it writes nothing to the registry. -/
def zombieCleanup (reg : Reg) (docId : Nat) (outputDir : List Char) (fs : FS) : FS :=
  if (lookup reg docId).isNone then
    if outputDir ∈ fs then fs.erase outputDir else fs
  else fs

/-- `merge_document_task` finally clause (tasks.py 469-472): restores
`sys.argv`, commits and closes — it touches no files. -/
def mergeTaskFinalizeFs (fs : FS) : FS := fs

/-- `rebuild_pdf_task` finally clause (tasks.py 512-515): restores
`sys.argv`, commits and closes — it touches no files. -/
def rebuildTaskFinalizeFs (fs : FS) : FS := fs

/-! ## `process_batch_task` (tasks.py 215-364) -/

/-- First commit (tasks.py 224-228): parent and all children `processing`. -/
def batchStartCommit (reg : Reg) (p : Nat) : Reg :=
  updFamily p
    (fun d => { d with status := .processing })
    (fun c => { c with status := .processing })
    reg

/-- Success commit (tasks.py 301-316, committed at 351): parent `completed`
with `output_pdf_path = parent_dir/parent.filename` and the `.txt` twin;
every child `completed` with its own `.txt` path in the group directory. -/
def batchSuccessCommit (reg : Reg) (p : Nat) : Reg :=
  match lookup reg p with
  | none => reg
  | some P =>
    let outputDir := docDirOf P
    let outputPdf := joinPath outputDir P.filename
    updFamily p
      (fun d => { d with
        status := .completed,
        outputPdf := some outputPdf,
        outputTxt := some (stemOf outputPdf ++ ".txt".toList) })
      (fun c => { c with
        status := .completed,
        outputTxt := some (joinPath outputDir (stemOf c.filename ++ ".txt".toList)) })
      reg

/-- Failure commit (tasks.py 340-348, committed at 351): parent `error` with
the exception detail, every child `error` with `"Batch processing failed"`. -/
def batchFailCommit (reg : Reg) (p : Nat) (detail : List Char) : Reg :=
  updFamily p
    (fun d => { d with status := .error, errorMessage := some detail })
    (fun c => { c with
      status := .error, errorMessage := some "Batch processing failed".toList })
    reg

/-! ## `merge_document_task` (tasks.py 366-472) -/

/-- First commit (tasks.py 377-378): parent `merging`, unconditionally. -/
def mergeStartCommit (reg : Reg) (p : Nat) : Reg :=
  updDoc p (fun d => { d with status := .merging }) reg

/-- Insertion sort by `page_order`, modelling `.order_by(Document.page_order)`
(tasks.py 381-383). -/
def insertPO (c : Doc) : List Doc → List Doc
  | [] => [c]
  | x :: xs => if c.pageOrder ≤ x.pageOrder then c :: x :: xs else x :: insertPO c xs

def sortByPageOrder : List Doc → List Doc
  | [] => []
  | x :: xs => insertPO x (sortByPageOrder xs)

/-- The ordered input file list the merge passes to the pipeline's combine
mode (tasks.py 380-439): children sorted by `page_order`, each resolved to
`{user_dir}/{child.directory_name}/{child.filename}`. -/
def mergeChildPaths (reg : Reg) (p : Nat) : List (List Char) :=
  (sortByPageOrder (childrenOf reg p)).map (fun c => joinPath (docDirOf c) c.filename)

/-- Success commit (tasks.py 443-461, committed at 471): parent `completed`
with the combined output paths; no child row is written. -/
def mergeSuccessCommit (reg : Reg) (p : Nat) : Reg :=
  updDoc p
    (fun d =>
      let outputPdf := joinPath (docDirOf d) d.filename
      { d with
        status := .completed,
        outputPdf := some outputPdf,
        outputTxt := some (stemOf outputPdf ++ ".txt".toList) })
    reg

/-- Failure commit (tasks.py 465-468, committed at 471): parent `error` with
the detail; no child row is written. -/
def mergeFailCommit (reg : Reg) (p : Nat) (detail : List Char) : Reg :=
  updDoc p (fun d => { d with status := .error, errorMessage := some detail }) reg

/-! ## `rebuild_pdf_task` (tasks.py 474-515) -/

/-- First commit (tasks.py 482-483): `updating_pdf`, unconditionally. -/
def rebuildStartCommit (reg : Reg) (docId : Nat) : Reg :=
  updDoc docId (fun d => { d with status := .updatingPdf }) reg

/-- Success commit (tasks.py 499-506). -/
def rebuildSuccessCommit (reg : Reg) (docId : Nat) : Reg :=
  updDoc docId (fun d => { d with status := .completed }) reg

/-- Failure commit (tasks.py 508-511). -/
def rebuildFailCommit (reg : Reg) (docId : Nat) (detail : List Char) : Reg :=
  updDoc docId (fun d => { d with status := .error, errorMessage := some detail }) reg

/-! ## Submission endpoints (`server/main.py`) -/

/-- The document row created by `POST /api/upload` (main.py 765-770):
status `queued`, its own `directory_name`, no parent. -/
def mkSingleDoc (i : Nat) (fname dirName owner : List Char) : Doc :=
  { id := i, filename := fname, status := .queued, errorMessage := none,
    outputTxt := none, outputPdf := none, isContainer := false, pageOrder := 0,
    directoryName := some dirName, parentId := none, ownerKey := owner }

/-- The uploaded file's path `documents/{owner}/{dir_name}/{filename}`
(main.py 752-756) passed to `process_document_task`. -/
def singleFilePath (owner dirName fname : List Char) : List Char :=
  joinPath (joinPath (userDirOf owner) dirName) fname

/-- The container row created by `POST /api/upload-batch` with a group name
(main.py 816-826; its status is `queued` by the final commit at 904). -/
def mkBatchParent (i : Nat) (groupName groupDir owner : List Char) : Doc :=
  { id := i, filename := groupName, status := .queued, errorMessage := none,
    outputTxt := none, outputPdf := none, isContainer := true, pageOrder := 0,
    directoryName := some groupDir, parentId := none, ownerKey := owner }

/-- The child rows of a grouped upload (main.py 858-882): the i-th file (from
0) gets `page_order = i + 1` and the shared group `directory_name`. -/
def mkBatchChildren (startId pid : Nat) (files : List (List Char))
    (groupDir owner : List Char) : List Doc :=
  files.enum.map (fun e =>
    { id := startId + e.1, filename := e.2, status := .queued, errorMessage := none,
      outputTxt := none, outputPdf := none, isContainer := false, pageOrder := e.1 + 1,
      directoryName := some groupDir, parentId := some pid, ownerKey := owner })

/-- The ordered file-path list handed to `process_batch_task` (main.py
855-886): one path per uploaded file, in upload order, in the shared group
directory. -/
def batchFilePaths (owner groupDir : List Char) (files : List (List Char)) :
    List (List Char) :=
  files.map (fun f => joinPath (joinPath (userDirOf owner) groupDir) f)

/-! ## The orchestrator as a transition system

A state is the committed registry, the queue of dispatched jobs, and the
autoincrement id counter; each `db.commit()` of an endpoint or job is one
step. -/

structure Sys where
  docs : Reg
  jobs : List Job
  next : Nat
  deriving DecidableEq, Repr

/-- `POST /api/upload` (main.py 733-783): create the row, enqueue
`process_document_task`. -/
def uploadSingleSys (s : Sys) (fname dirName owner : List Char) : Sys :=
  { docs := s.docs ++ [mkSingleDoc s.next fname dirName owner],
    jobs := s.jobs ++ [Job.processJob s.next (singleFilePath owner dirName fname) false],
    next := s.next + 1 }

/-- `POST /api/upload-batch` with a group name (main.py 785-910): create the
container and its children, enqueue `process_batch_task`. -/
def uploadBatchSys (s : Sys) (files : List (List Char)) (groupName groupDir owner : List Char) :
    Sys :=
  { docs := s.docs ++ mkBatchParent s.next groupName groupDir owner ::
      mkBatchChildren (s.next + 1) s.next files groupDir owner,
    jobs := s.jobs ++ [Job.batchJob s.next (batchFilePaths owner groupDir files) false],
    next := s.next + 1 + files.length }

/-- `POST /api/rebuild-pdf/{doc_id}` (main.py 933-965): set `updating_pdf`
immediately and enqueue `rebuild_pdf_task` on the document's source file. -/
def rebuildReqSys (s : Sys) (docId : Nat) (filePath : List Char) : Sys :=
  { docs := rebuildStartCommit s.docs docId,
    jobs := s.jobs ++ [Job.rebuildJob docId filePath false],
    next := s.next }

/-- `process_document_task` first commit; a vanished row ends the task. -/
def processStartSys (s : Sys) (docId : Nat) (fp : List Char) : Sys :=
  { docs := procStartCommit s.docs docId,
    jobs := (s.jobs.erase (Job.processJob docId fp false)) ++
      (if (lookup s.docs docId).isSome then [Job.processJob docId fp true] else []),
    next := s.next }

/-- `process_document_task` success commit plus the sibling-completion merge
trigger. -/
def processFinishSuccessSys (s : Sys) (docId : Nat) (fp : List Char) : Sys :=
  let reg1 := procSuccessCommit s.docs docId fp
  { docs := reg1,
    jobs := (s.jobs.erase (Job.processJob docId fp true)) ++ siblingCheck reg1 docId,
    next := s.next }

/-- `process_document_task` failure commit (non-zero pipeline exit). -/
def processFinishFailSys (s : Sys) (docId : Nat) (fp : List Char)
    (outputLines : List (List Char)) : Sys :=
  { docs := procFailCommit s.docs docId outputLines,
    jobs := s.jobs.erase (Job.processJob docId fp true),
    next := s.next }

/-- `process_batch_task` first commit; a vanished parent ends the task. -/
def batchStartSys (s : Sys) (p : Nat) (fps : List (List Char)) : Sys :=
  { docs := if (lookup s.docs p).isSome then batchStartCommit s.docs p else s.docs,
    jobs := (s.jobs.erase (Job.batchJob p fps false)) ++
      (if (lookup s.docs p).isSome then [Job.batchJob p fps true] else []),
    next := s.next }

/-- `process_batch_task` success commit. -/
def batchFinishSuccessSys (s : Sys) (p : Nat) (fps : List (List Char)) : Sys :=
  { docs := batchSuccessCommit s.docs p,
    jobs := s.jobs.erase (Job.batchJob p fps true),
    next := s.next }

/-- `process_batch_task` failure commit. -/
def batchFinishFailSys (s : Sys) (p : Nat) (fps : List (List Char)) (detail : List Char) :
    Sys :=
  { docs := batchFailCommit s.docs p detail,
    jobs := s.jobs.erase (Job.batchJob p fps true),
    next := s.next }

/-- `merge_document_task` first commit; a vanished parent ends the task. -/
def mergeStartSys (s : Sys) (p : Nat) : Sys :=
  { docs := if (lookup s.docs p).isSome then mergeStartCommit s.docs p else s.docs,
    jobs := (s.jobs.erase (Job.mergeJob p false)) ++
      (if (lookup s.docs p).isSome then [Job.mergeJob p true] else []),
    next := s.next }

/-- `merge_document_task` success commit. -/
def mergeFinishSuccessSys (s : Sys) (p : Nat) : Sys :=
  { docs := mergeSuccessCommit s.docs p,
    jobs := s.jobs.erase (Job.mergeJob p true),
    next := s.next }

/-- `merge_document_task` failure commit. -/
def mergeFinishFailSys (s : Sys) (p : Nat) (detail : List Char) : Sys :=
  { docs := mergeFailCommit s.docs p detail,
    jobs := s.jobs.erase (Job.mergeJob p true),
    next := s.next }

/-- `rebuild_pdf_task` first commit; a vanished row ends the task. -/
def rebuildStartSys (s : Sys) (docId : Nat) (fp : List Char) : Sys :=
  { docs := if (lookup s.docs docId).isSome then rebuildStartCommit s.docs docId else s.docs,
    jobs := (s.jobs.erase (Job.rebuildJob docId fp false)) ++
      (if (lookup s.docs docId).isSome then [Job.rebuildJob docId fp true] else []),
    next := s.next }

/-- `rebuild_pdf_task` success commit. -/
def rebuildFinishSuccessSys (s : Sys) (docId : Nat) (fp : List Char) : Sys :=
  { docs := rebuildSuccessCommit s.docs docId,
    jobs := s.jobs.erase (Job.rebuildJob docId fp true),
    next := s.next }

/-- `rebuild_pdf_task` failure commit. -/
def rebuildFinishFailSys (s : Sys) (docId : Nat) (fp : List Char) (detail : List Char) : Sys :=
  { docs := rebuildFailCommit s.docs docId detail,
    jobs := s.jobs.erase (Job.rebuildJob docId fp true),
    next := s.next }

/-- One committed step of the orchestrator: a submission endpoint commit or a
job commit. Pipeline success or failure is chosen nondeterministically at the
finishing step. The `rebuildReq` endpoint checks only that the row exists and
`os.path.exists(file_path)` (main.py 953-955); the file check is a filesystem
condition, not a registry one: a child's or standalone document's source image
always exists, and a container's combined artifact exists from the moment the
batch pipeline writes it (tasks.py 296, before the success commit at 351) and
can even exist at upload time when a child's filename collides with the group
name. The model therefore imposes no status precondition and accepts every
request on an existing row — an over-approximation of the code's transitions,
sound for the invariants proved below. -/
inductive Step : Sys → Sys → Prop
  | uploadSingle (s : Sys) (fname dirName owner : List Char) :
      Step s (uploadSingleSys s fname dirName owner)
  | uploadBatch (s : Sys) (files : List (List Char)) (groupName groupDir owner : List Char)
      (hne : files ≠ []) :
      Step s (uploadBatchSys s files groupName groupDir owner)
  | rebuildReq (s : Sys) (docId : Nat) (D : Doc)
      (hD : lookup s.docs docId = some D) :
      Step s (rebuildReqSys s docId (joinPath (docDirOf D) D.filename))
  | processStart (s : Sys) (docId : Nat) (fp : List Char)
      (hj : Job.processJob docId fp false ∈ s.jobs) :
      Step s (processStartSys s docId fp)
  | processFinishSuccess (s : Sys) (docId : Nat) (fp : List Char)
      (hj : Job.processJob docId fp true ∈ s.jobs) :
      Step s (processFinishSuccessSys s docId fp)
  | processFinishFail (s : Sys) (docId : Nat) (fp : List Char) (outputLines : List (List Char))
      (hj : Job.processJob docId fp true ∈ s.jobs) :
      Step s (processFinishFailSys s docId fp outputLines)
  | batchStart (s : Sys) (p : Nat) (fps : List (List Char))
      (hj : Job.batchJob p fps false ∈ s.jobs) :
      Step s (batchStartSys s p fps)
  | batchFinishSuccess (s : Sys) (p : Nat) (fps : List (List Char))
      (hj : Job.batchJob p fps true ∈ s.jobs) :
      Step s (batchFinishSuccessSys s p fps)
  | batchFinishFail (s : Sys) (p : Nat) (fps : List (List Char)) (detail : List Char)
      (hj : Job.batchJob p fps true ∈ s.jobs) :
      Step s (batchFinishFailSys s p fps detail)
  | mergeStart (s : Sys) (p : Nat)
      (hj : Job.mergeJob p false ∈ s.jobs) :
      Step s (mergeStartSys s p)
  | mergeFinishSuccess (s : Sys) (p : Nat)
      (hj : Job.mergeJob p true ∈ s.jobs) :
      Step s (mergeFinishSuccessSys s p)
  | mergeFinishFail (s : Sys) (p : Nat) (detail : List Char)
      (hj : Job.mergeJob p true ∈ s.jobs) :
      Step s (mergeFinishFailSys s p detail)
  | rebuildStart (s : Sys) (docId : Nat) (fp : List Char)
      (hj : Job.rebuildJob docId fp false ∈ s.jobs) :
      Step s (rebuildStartSys s docId fp)
  | rebuildFinishSuccess (s : Sys) (docId : Nat) (fp : List Char)
      (hj : Job.rebuildJob docId fp true ∈ s.jobs) :
      Step s (rebuildFinishSuccessSys s docId fp)
  | rebuildFinishFail (s : Sys) (docId : Nat) (fp : List Char) (detail : List Char)
      (hj : Job.rebuildJob docId fp true ∈ s.jobs) :
      Step s (rebuildFinishFailSys s docId fp detail)

/-- The empty deployment: no documents, no jobs. -/
def initSys : Sys := { docs := [], jobs := [], next := 0 }

/-- States reachable by the orchestrator. -/
inductive Reach : Sys → Prop
  | init : Reach initSys
  | step {s t : Sys} : Reach s → Step s t → Reach t

/-! ## Registry facts used by the invariant proof -/

theorem lookup_mem {reg : Reg} {i : Nat} {D : Doc} (h : lookup reg i = some D) :
    D ∈ reg ∧ D.id = i := by
  refine ⟨List.mem_of_find?_eq_some h, ?_⟩
  have hp := List.find?_some h
  simpa using hp

theorem eq_of_id_eq {reg : Reg} (hnd : (reg.map Doc.id).Nodup) {a b : Doc}
    (ha : a ∈ reg) (hb : b ∈ reg) (hid : a.id = b.id) : a = b :=
  List.inj_on_of_nodup_map hnd ha hb hid

theorem lookup_self {reg : Reg} (hnd : (reg.map Doc.id).Nodup) {D : Doc} (hD : D ∈ reg) :
    lookup reg D.id = some D := by
  cases hfind : lookup reg D.id with
  | none =>
    exfalso
    unfold lookup at hfind
    rw [List.find?_eq_none] at hfind
    exact hfind D hD (by simp)
  | some E =>
    obtain ⟨hEm, hEid⟩ := lookup_mem hfind
    rw [eq_of_id_eq hnd hEm hD hEid]

theorem lookup_append (reg₁ reg₂ : Reg) (i : Nat) :
    lookup (reg₁ ++ reg₂) i = (lookup reg₁ i).or (lookup reg₂ i) :=
  List.find?_append

theorem childrenOf_append (reg₁ reg₂ : Reg) (p : Nat) :
    childrenOf (reg₁ ++ reg₂) p = childrenOf reg₁ p ++ childrenOf reg₂ p :=
  List.filter_append _ _

theorem mem_updDoc {reg : Reg} {j : Nat} {f : Doc → Doc} {d' : Doc}
    (h : d' ∈ updDoc j f reg) :
    ∃ d ∈ reg, d' = if d.id == j then f d else d := by
  unfold updDoc at h
  obtain ⟨d, hd, hEq⟩ := List.mem_map.mp h
  exact ⟨d, hd, hEq.symm⟩

theorem mem_updFamily {reg : Reg} {p : Nat} {fp fc : Doc → Doc} {d' : Doc}
    (h : d' ∈ updFamily p fp fc reg) :
    ∃ d ∈ reg, d' = if d.id == p then fp d else if d.parentId == some p then fc d else d := by
  unfold updFamily at h
  obtain ⟨d, hd, hEq⟩ := List.mem_map.mp h
  exact ⟨d, hd, hEq.symm⟩

theorem map_id_updDoc (reg : Reg) (j : Nat) (f : Doc → Doc) (hf : ∀ d, (f d).id = d.id) :
    (updDoc j f reg).map Doc.id = reg.map Doc.id := by
  unfold updDoc
  rw [List.map_map]
  apply List.map_congr_left
  intro d _
  by_cases h : d.id == j <;> simp [Function.comp, h, hf]

theorem map_id_updFamily (reg : Reg) (p : Nat) (fp fc : Doc → Doc)
    (hfp : ∀ d, (fp d).id = d.id) (hfc : ∀ d, (fc d).id = d.id) :
    (updFamily p fp fc reg).map Doc.id = reg.map Doc.id := by
  unfold updFamily
  rw [List.map_map]
  apply List.map_congr_left
  intro d _
  by_cases h : d.id == p
  · simp [Function.comp, h, hfp]
  · by_cases h2 : d.parentId == some p <;> simp [Function.comp, h, h2, hfc]

/-- Whether a job is the batch job of container `p`. -/
def isBatchFor (p : Nat) : Job → Bool
  | .batchJob q _ _ => q == p
  | _ => false

/-- Number of batch jobs for container `p` in the queue. -/
def countBatch (p : Nat) (jobs : List Job) : Nat :=
  (jobs.filter (isBatchFor p)).length

theorem countBatch_append (p : Nat) (l₁ l₂ : List Job) :
    countBatch p (l₁ ++ l₂) = countBatch p l₁ + countBatch p l₂ := by
  unfold countBatch
  rw [List.filter_append, List.length_append]

theorem countBatch_erase_le (p : Nat) (l : List Job) (j : Job) :
    countBatch p (l.erase j) ≤ countBatch p l :=
  List.Sublist.length_le (List.Sublist.filter _ (List.erase_sublist j l))

theorem countBatch_erase_mem (p : Nat) (l : List Job) (j : Job)
    (hj : j ∈ l) (hp : isBatchFor p j = true) :
    countBatch p (l.erase j) + 1 = countBatch p l := by
  induction l with
  | nil => cases hj
  | cons a l ih =>
    by_cases haj : a == j
    · have ha : a = j := by simpa using haj
      unfold countBatch
      simp [List.erase_cons, haj, ha, List.filter_cons, hp]
    · have ha : a ≠ j := by simpa using haj
      have hj' : j ∈ l := by
        rcases List.mem_cons.mp hj with h | h
        · exact absurd h.symm ha
        · exact h
      unfold countBatch at ih ⊢
      have herase : (a :: l).erase j = a :: l.erase j := by
        rw [List.erase_cons]
        simp [haj]
      rw [herase, List.filter_cons, List.filter_cons]
      by_cases hfa : isBatchFor p a = true
      · rw [if_pos hfa, if_pos hfa]
        simp only [List.length_cons]
        have := ih hj'
        omega
      · rw [if_neg hfa, if_neg hfa]
        exact ih hj'

/-! ## The inductive invariant of the orchestrator -/

/-- All facts about reachable orchestrator states used by the claim proofs:
id freshness, id uniqueness, which documents the job queue can target, that
container parents are roots, and that the merge job is never enqueued in the
live flow (process jobs only ever target parentless documents). -/
structure Inv (s : Sys) : Prop where
  idLt : ∀ d ∈ s.docs, d.id < s.next
  jobLt : ∀ j ∈ s.jobs, j.target < s.next
  nodup : (s.docs.map Doc.id).Nodup
  procTargets : ∀ i fp ph D, Job.processJob i fp ph ∈ s.jobs →
      lookup s.docs i = some D → D.parentId = none ∧ D.isContainer = false
  noMerge : ∀ p ph, Job.mergeJob p ph ∉ s.jobs
  parentContainer : ∀ c ∈ s.docs, ∀ q, c.parentId = some q →
      ∃ Q, lookup s.docs q = some Q ∧ Q.isContainer = true ∧ Q.parentId = none
  batchPhase : ∀ p fps ph P, Job.batchJob p fps ph ∈ s.jobs →
      lookup s.docs p = some P → P.isContainer = true ∧ P.parentId = none
  batchCount : ∀ p, countBatch p s.jobs ≤ 1

theorem lookup_append_keep (reg newDocs : Reg) (i : Nat)
    (hnew : ∀ d ∈ newDocs, d.id ≠ i) :
    lookup (reg ++ newDocs) i = lookup reg i := by
  rw [lookup_append]
  cases h : lookup reg i with
  | some D => rfl
  | none =>
    have : lookup newDocs i = none := by
      unfold lookup
      rw [List.find?_eq_none]
      intro d hd
      simpa using hnew d hd
    rw [this]
    rfl

theorem lookup_append_right (reg newDocs : Reg) (i : Nat)
    (hreg : ∀ d ∈ reg, d.id ≠ i) :
    lookup (reg ++ newDocs) i = lookup newDocs i := by
  rw [lookup_append]
  have : lookup reg i = none := by
    unfold lookup
    rw [List.find?_eq_none]
    intro d hd
    simpa using hreg d hd
  rw [this]
  rfl

theorem childrenOf_eq_nil (reg : Reg) (q : Nat)
    (h : ∀ d ∈ reg, d.parentId ≠ some q) : childrenOf reg q = [] := by
  unfold childrenOf
  rw [List.filter_eq_nil]
  intro d hd
  simpa using h d hd

theorem mem_mkBatchChildren {a pid : Nat} {files : List (List Char)}
    {gd ow : List Char} {c : Doc} (h : c ∈ mkBatchChildren a pid files gd ow) :
    ∃ k, k < files.length ∧ c.id = a + k ∧ c.parentId = some pid ∧
      c.status = .queued ∧ c.isContainer = false ∧ c.pageOrder = k + 1 := by
  unfold mkBatchChildren at h
  obtain ⟨e, he, hEq⟩ := List.mem_map.mp h
  obtain ⟨hk, _⟩ := List.mem_enum he
  exact ⟨e.1, hk, by rw [← hEq], by rw [← hEq], by rw [← hEq], by rw [← hEq], by rw [← hEq]⟩

theorem inv_init : Inv initSys := by
  constructor <;> simp [initSys, countBatch, lookup, childrenOf]

theorem inv_uploadSingle (s : Sys) (fname dirName owner : List Char) (hI : Inv s) :
    Inv (uploadSingleSys s fname dirName owner) := by
  obtain ⟨idLt, jobLt, nodup, procT, noM, parC, batP, batC⟩ := hI
  set newD := mkSingleDoc s.next fname dirName owner with hnewD
  have hnewid : newD.id = s.next := rfl
  set t := uploadSingleSys s fname dirName owner with ht
  have hdocs : t.docs = s.docs ++ [newD] := rfl
  have hjobs : t.jobs = s.jobs ++ [Job.processJob s.next (singleFilePath owner dirName fname) false] := rfl
  have hnext : t.next = s.next + 1 := rfl
  have hlook_old : ∀ i, i ≠ s.next → lookup t.docs i = lookup s.docs i := by
    intro i hi
    rw [hdocs]
    apply lookup_append_keep
    intro d hd
    rcases List.mem_singleton.mp hd with rfl
    simpa [hnewid] using hi.symm
  have hlook_new : lookup t.docs s.next = some newD := by
    rw [hdocs, lookup_append_right]
    · unfold lookup
      simp [hnewid]
    · intro d hd
      exact Nat.ne_of_lt (idLt d hd)
  have hjmem : ∀ j, j ∈ t.jobs →
      j ∈ s.jobs ∨ j = Job.processJob s.next (singleFilePath owner dirName fname) false := by
    intro j hj
    rw [hjobs] at hj
    rcases List.mem_append.mp hj with h | h
    · exact Or.inl h
    · exact Or.inr (List.mem_singleton.mp h)
  constructor
  · -- idLt
    intro d hd
    rw [hdocs] at hd
    rw [hnext]
    rcases List.mem_append.mp hd with h | h
    · exact Nat.lt_succ_of_lt (idLt d h)
    · rcases List.mem_singleton.mp h with rfl
      rw [hnewid]
      exact Nat.lt_succ_self _
  · -- jobLt
    intro j hj
    rw [hnext]
    rcases hjmem j hj with h | rfl
    · exact Nat.lt_succ_of_lt (jobLt j h)
    · exact Nat.lt_succ_self _
  · -- nodup
    rw [hdocs, List.map_append]
    refine List.Nodup.append nodup (by simp) ?_
    intro x hx hy
    simp only [List.map_cons, List.map_nil, List.mem_singleton] at hy
    subst hy
    obtain ⟨d, hd, hdx⟩ := List.mem_map.mp hx
    have := idLt d hd
    rw [hdx] at this
    rw [hnewid] at this
    exact absurd rfl (Nat.ne_of_lt this)
  · -- procTargets
    intro i fp ph D hjob hlk
    rcases hjmem _ hjob with h | h
    · have hi : i ≠ s.next := Nat.ne_of_lt (by simpa using jobLt _ h)
      rw [hlook_old i hi] at hlk
      exact procT i fp ph D h hlk
    · cases h
      rw [hlook_new] at hlk
      cases hlk
      exact ⟨rfl, rfl⟩
  · -- noMerge
    intro p ph hjob
    rcases hjmem _ hjob with h | h
    · exact noM p ph h
    · cases h
  · -- parentContainer
    intro c hc q hq
    rw [hdocs] at hc
    rcases List.mem_append.mp hc with h | h
    · obtain ⟨Q, hQ, hQc⟩ := parC c h q hq
      obtain ⟨hQm, hQid⟩ := lookup_mem hQ
      refine ⟨Q, ?_, hQc⟩
      rw [hlook_old q (by rw [← hQid]; exact Nat.ne_of_lt (idLt Q hQm))]
      exact hQ
    · rcases List.mem_singleton.mp h with rfl
      simp [hnewD, mkSingleDoc] at hq
  · -- batchPhase
    intro p fps ph P hjob hlk
    rcases hjmem _ hjob with h | h
    · have hp : p ≠ s.next := Nat.ne_of_lt (by simpa using jobLt _ h)
      rw [hlook_old p hp] at hlk
      exact batP p fps ph P h hlk
    · cases h
  · -- batchCount
    intro p
    rw [hjobs, countBatch_append]
    have : countBatch p [Job.processJob s.next (singleFilePath owner dirName fname) false] = 0 := by
      simp [countBatch, isBatchFor]
    rw [this]
    simpa using batC p

theorem mkBatchChildren_map_id (a pid : Nat) (files : List (List Char)) (gd ow : List Char) :
    (mkBatchChildren a pid files gd ow).map Doc.id =
      (List.range files.length).map (fun k => a + k) := by
  unfold mkBatchChildren
  rw [List.map_map, ← List.enum_map_fst files, List.map_map]
  rfl

theorem countBatch_eq_zero (p : Nat) (l : List Job)
    (h : ∀ j ∈ l, isBatchFor p j = false) : countBatch p l = 0 := by
  unfold countBatch
  rw [List.filter_eq_nil_iff.mpr (fun j hj => by simp [h j hj])]
  rfl

theorem inv_uploadBatch (s : Sys) (files : List (List Char))
    (groupName groupDir owner : List Char) (hI : Inv s) :
    Inv (uploadBatchSys s files groupName groupDir owner) := by
  obtain ⟨idLt, jobLt, nodup, procT, noM, parC, batP, batC⟩ := hI
  set P0 := mkBatchParent s.next groupName groupDir owner with hP0
  set kids := mkBatchChildren (s.next + 1) s.next files groupDir owner with hkids
  set newJob := Job.batchJob s.next (batchFilePaths owner groupDir files) false with hnewJob
  set t := uploadBatchSys s files groupName groupDir owner with ht
  have hdocs : t.docs = s.docs ++ P0 :: kids := rfl
  have hjobs : t.jobs = s.jobs ++ [newJob] := rfl
  have hnext : t.next = s.next + 1 + files.length := rfl
  have hP0id : P0.id = s.next := rfl
  have hkid_facts : ∀ c ∈ kids, ∃ k, k < files.length ∧ c.id = s.next + 1 + k ∧
      c.parentId = some s.next ∧ c.status = .queued ∧ c.isContainer = false ∧
      c.pageOrder = k + 1 := fun c hc => mem_mkBatchChildren hc
  have hnew_ge : ∀ d ∈ P0 :: kids, s.next ≤ d.id := by
    intro d hd
    rcases List.mem_cons.mp hd with rfl | hd
    · exact Nat.le_refl _
    · obtain ⟨k, _, hid, _⟩ := hkid_facts d hd
      omega
  have hlook_old : ∀ i, i < s.next → lookup t.docs i = lookup s.docs i := by
    intro i hi
    rw [hdocs]
    apply lookup_append_keep
    intro d hd
    have := hnew_ge d hd
    omega
  have hlook_parent : lookup t.docs s.next = some P0 := by
    rw [hdocs, lookup_append_right]
    · unfold lookup
      rw [List.find?_cons]
      simp [hP0id]
    · intro d hd
      exact Nat.ne_of_lt (idLt d hd)
  have hjmem : ∀ j, j ∈ t.jobs → j ∈ s.jobs ∨ j = newJob := by
    intro j hj
    rw [hjobs] at hj
    rcases List.mem_append.mp hj with h | h
    · exact Or.inl h
    · exact Or.inr (List.mem_singleton.mp h)
  constructor
  · -- idLt
    intro d hd
    rw [hdocs] at hd
    rw [hnext]
    rcases List.mem_append.mp hd with h | h
    · have := idLt d h
      omega
    · rcases List.mem_cons.mp h with rfl | h
      · rw [hP0id]; omega
      · obtain ⟨k, hk, hid, _⟩ := hkid_facts d h
        omega
  · -- jobLt
    intro j hj
    rw [hnext]
    rcases hjmem j hj with h | rfl
    · have := jobLt j h
      omega
    · show s.next < s.next + 1 + files.length
      omega
  · -- nodup
    rw [hdocs, List.map_append]
    refine List.Nodup.append nodup ?_ ?_
    · rw [List.map_cons]
      refine List.nodup_cons.mpr ⟨?_, ?_⟩
      · intro hmem
        rw [hkids, mkBatchChildren_map_id] at hmem
        obtain ⟨k, _, hEq⟩ := List.mem_map.mp hmem
        rw [hP0id] at hEq
        omega
      · rw [hkids, mkBatchChildren_map_id]
        refine List.Nodup.map ?_ (List.nodup_range files.length)
        intro x y hxy
        have h2 : s.next + 1 + x = s.next + 1 + y := hxy
        omega
    · intro x hx hy
      obtain ⟨d, hd, rfl⟩ := List.mem_map.mp hx
      obtain ⟨e, he, hEq⟩ := List.mem_map.mp hy
      have h1 := idLt d hd
      have h2 := hnew_ge e he
      omega
  · -- procTargets
    intro i fp ph D hjob hlk
    rcases hjmem _ hjob with h | h
    · have hi := jobLt _ h
      rw [hlook_old i (by simpa using hi)] at hlk
      exact procT i fp ph D h hlk
    · rw [hnewJob] at h
      simp at h
  · -- noMerge
    intro p ph hjob
    rcases hjmem _ hjob with h | h
    · exact noM p ph h
    · rw [hnewJob] at h
      simp at h
  · -- parentContainer
    intro c hc q hq
    rw [hdocs] at hc
    rcases List.mem_append.mp hc with h | h
    · obtain ⟨Q, hQ, hQc⟩ := parC c h q hq
      obtain ⟨hQm, hQid⟩ := lookup_mem hQ
      refine ⟨Q, ?_, hQc⟩
      rw [hlook_old q (by rw [← hQid]; exact idLt Q hQm)]
      exact hQ
    · rcases List.mem_cons.mp h with rfl | h
      · simp [hP0, mkBatchParent] at hq
      · obtain ⟨k, _, _, hpar, _⟩ := hkid_facts c h
        rw [hpar] at hq
        cases hq
        exact ⟨P0, hlook_parent, rfl, rfl⟩
  · -- batchPhase
    intro p fps ph P hjob hlk
    rcases hjmem _ hjob with h | h
    · have hp := jobLt _ h
      rw [hlook_old p (by simpa using hp)] at hlk
      exact batP p fps ph P h hlk
    · rw [hnewJob] at h
      injection h with h1 h2 h3
      subst h1
      subst h3
      rw [hlook_parent] at hlk
      cases hlk
      exact ⟨rfl, rfl⟩
  · -- batchCount
    intro p
    rw [hjobs, countBatch_append]
    by_cases hp : p = s.next
    · have h0 : countBatch p s.jobs = 0 := by
        apply countBatch_eq_zero
        intro j hj
        cases j with
        | batchJob q fps2 ph2 =>
          have htg := jobLt _ hj
          simp only [Job.target] at htg
          simp [isBatchFor]
          omega
        | processJob _ _ _ => rfl
        | mergeJob _ _ => rfl
        | rebuildJob _ _ _ => rfl
      rw [h0]
      simp [countBatch, isBatchFor, hnewJob, hp]
    · have h1 : countBatch p [newJob] = 0 := by
        apply countBatch_eq_zero
        intro j hj
        rcases List.mem_singleton.mp hj with rfl
        simp [isBatchFor, hnewJob]
        omega
      rw [h1]
      simpa using batC p

theorem inv_rebuildReq (s : Sys) (docId : Nat) (D : Doc) (fp : List Char)
    (hD : lookup s.docs docId = some D)
    (hI : Inv s) : Inv (rebuildReqSys s docId fp) := by
  obtain ⟨idLt, jobLt, nodup, procT, noM, parC, batP, batC⟩ := hI
  obtain ⟨hDmem, hDid⟩ := lookup_mem hD
  set f := fun d : Doc => { d with status := St.updatingPdf } with hf
  set t := rebuildReqSys s docId fp with ht
  have hdocs : t.docs = updDoc docId f s.docs := rfl
  have hjobs : t.jobs = s.jobs ++ [Job.rebuildJob docId fp false] := rfl
  have hnext : t.next = s.next := rfl
  have hlook : ∀ i, lookup t.docs i =
      (lookup s.docs i).map (fun d => if d.id == docId then f d else d) := by
    intro i
    rw [hdocs]
    exact lookup_updDoc s.docs i docId f (fun d => rfl)
  have hjmem : ∀ j, j ∈ t.jobs → j ∈ s.jobs ∨ j = Job.rebuildJob docId fp false := by
    intro j hj
    rw [hjobs] at hj
    rcases List.mem_append.mp hj with h | h
    · exact Or.inl h
    · exact Or.inr (List.mem_singleton.mp h)
  constructor
  · -- idLt
    intro d hd
    rw [hdocs] at hd
    rw [hnext]
    obtain ⟨d0, hd0, rfl⟩ := mem_updDoc hd
    by_cases h : d0.id == docId
    · rw [if_pos h]
      exact idLt d0 hd0
    · rw [if_neg h]
      exact idLt d0 hd0
  · -- jobLt
    intro j hj
    rw [hnext]
    rcases hjmem j hj with h | rfl
    · exact jobLt j h
    · show docId < s.next
      rw [← hDid]
      exact idLt D hDmem
  · -- nodup
    rw [hdocs, map_id_updDoc s.docs docId f (fun d => rfl)]
    exact nodup
  · -- procTargets
    intro i fp2 ph D' hjob hlk
    have hjob' : Job.processJob i fp2 ph ∈ s.jobs := by
      rcases hjmem _ hjob with h | h
      · exact h
      · exact Job.noConfusion h
    rw [hlook] at hlk
    cases horig : lookup s.docs i with
    | none => rw [horig] at hlk; cases hlk
    | some D0 =>
      rw [horig] at hlk
      simp only [Option.map_some'] at hlk
      obtain ⟨h1, h2⟩ := procT i fp2 ph D0 hjob' horig
      cases hlk
      by_cases hid : D0.id == docId
      · rw [if_pos hid]
        exact ⟨h1, h2⟩
      · rw [if_neg hid]
        exact ⟨h1, h2⟩
  · -- noMerge
    intro p ph hjob
    rcases hjmem _ hjob with h | h
    · exact noM p ph h
    · exact Job.noConfusion h
  · -- parentContainer
    intro c' hc' q hq
    rw [hdocs] at hc'
    obtain ⟨c, hc, rfl⟩ := mem_updDoc hc'
    have hcq : c.parentId = some q := by
      by_cases h : c.id == docId
      · rw [if_pos h] at hq; exact hq
      · rw [if_neg h] at hq; exact hq
    obtain ⟨Q, hQ, hQc⟩ := parC c hc q hcq
    refine ⟨if Q.id == docId then f Q else Q, ?_, ?_⟩
    · rw [hlook, hQ]
      rfl
    · by_cases h : Q.id == docId
      · rw [if_pos h]; exact hQc
      · rw [if_neg h]; exact hQc
  · -- batchPhase
    intro p fps ph P' hjob hlk
    have hjob' : Job.batchJob p fps ph ∈ s.jobs := by
      rcases hjmem _ hjob with h | h
      · exact h
      · exact Job.noConfusion h
    rw [hlook] at hlk
    cases horig : lookup s.docs p with
    | none => rw [horig] at hlk; cases hlk
    | some P =>
      rw [horig] at hlk
      simp only [Option.map_some'] at hlk
      obtain ⟨h1, h2⟩ := batP p fps ph P hjob' horig
      cases hlk
      by_cases h : P.id == docId
      · rw [if_pos h]
        exact ⟨h1, h2⟩
      · rw [if_neg h]
        exact ⟨h1, h2⟩
  · -- batchCount
    intro p
    rw [hjobs, countBatch_append]
    have : countBatch p [Job.rebuildJob docId fp false] = 0 := by
      simp [countBatch, isBatchFor]
    rw [this]
    simpa using batC p

theorem mem_erase_append {l : List Job} {j0 j : Job} {extra : List Job}
    (h : j ∈ l.erase j0 ++ extra) : j ∈ l ∨ j ∈ extra := by
  rcases List.mem_append.mp h with h | h
  · exact Or.inl (List.mem_of_mem_erase h)
  · exact Or.inr h

/-- Invariant preservation for any commit of `process_document_task`: the
task updates only its own (parentless, non-container) document and leaves at
most process jobs for the same document in the queue. -/
theorem inv_procUpd (s : Sys) (docId : Nat) (fp : List Char) (ph : Bool)
    (hj : Job.processJob docId fp ph ∈ s.jobs)
    (f : Doc → Doc)
    (hfid : ∀ d, (f d).id = d.id) (hfpar : ∀ d, (f d).parentId = d.parentId)
    (hfcont : ∀ d, (f d).isContainer = d.isContainer)
    (t : Sys)
    (htd : t.docs = updDoc docId f s.docs)
    (htn : t.next = s.next)
    (htj : ∀ j, j ∈ t.jobs → j ∈ s.jobs ∨ ∃ ph2, j = Job.processJob docId fp ph2)
    (htcount : ∀ p, countBatch p t.jobs ≤ countBatch p s.jobs)
    (hI : Inv s) : Inv t := by
  obtain ⟨idLt, jobLt, nodup, procT, noM, parC, batP, batC⟩ := hI
  have hlook : ∀ i, lookup t.docs i =
      (lookup s.docs i).map (fun d => if d.id == docId then f d else d) := by
    intro i
    rw [htd]
    exact lookup_updDoc s.docs i docId f hfid
  have hclean : ∀ D0, lookup s.docs docId = some D0 →
      D0.parentId = none ∧ D0.isContainer = false := fun D0 h => procT docId fp ph D0 hj h
  constructor
  · -- idLt
    intro d hd
    rw [htd] at hd
    rw [htn]
    obtain ⟨d0, hd0, rfl⟩ := mem_updDoc hd
    by_cases h : d0.id == docId
    · rw [if_pos h]
      rw [hfid]
      exact idLt d0 hd0
    · rw [if_neg h]
      exact idLt d0 hd0
  · -- jobLt
    intro j hjm
    rw [htn]
    rcases htj j hjm with h | ⟨ph2, rfl⟩
    · exact jobLt j h
    · have := jobLt _ hj
      simpa using this
  · -- nodup
    rw [htd, map_id_updDoc s.docs docId f hfid]
    exact nodup
  · -- procTargets
    intro i fp2 ph2 D' hjob hlk
    rw [hlook] at hlk
    cases horig : lookup s.docs i with
    | none => rw [horig] at hlk; cases hlk
    | some D0 =>
      rw [horig] at hlk
      simp only [Option.map_some'] at hlk
      have hfields : D'.parentId = D0.parentId ∧ D'.isContainer = D0.isContainer := by
        cases hlk
        by_cases h : D0.id == docId
        · rw [if_pos h]
          exact ⟨hfpar D0, hfcont D0⟩
        · rw [if_neg h]
          exact ⟨rfl, rfl⟩
      rcases htj _ hjob with h | ⟨ph3, hEq⟩
      · obtain ⟨h1, h2⟩ := procT i fp2 ph2 D0 h horig
        rw [hfields.1, hfields.2]
        exact ⟨h1, h2⟩
      · injection hEq with hi hfp hph
        subst hi
        obtain ⟨h1, h2⟩ := hclean D0 horig
        rw [hfields.1, hfields.2]
        exact ⟨h1, h2⟩
  · -- noMerge
    intro p ph2 hjob
    rcases htj _ hjob with h | ⟨ph3, hEq⟩
    · exact noM p ph2 h
    · exact Job.noConfusion hEq
  · -- parentContainer
    intro c' hc' q hq
    rw [htd] at hc'
    obtain ⟨c, hc, rfl⟩ := mem_updDoc hc'
    have hcq : c.parentId = some q := by
      by_cases h : c.id == docId
      · rw [if_pos h] at hq
        rw [← hfpar c]
        exact hq
      · rw [if_neg h] at hq
        exact hq
    obtain ⟨Q, hQ, hQc, hQp⟩ := parC c hc q hcq
    refine ⟨if Q.id == docId then f Q else Q, ?_, ?_⟩
    · rw [hlook, hQ]
      rfl
    · by_cases h : Q.id == docId
      · refine ⟨?_, ?_⟩
        · rw [if_pos h, hfcont]
          exact hQc
        · rw [if_pos h, hfpar]
          exact hQp
      · rw [if_neg h]
        exact ⟨hQc, hQp⟩
  · -- batchPhase
    intro p fps ph2 P' hjob hlk
    have hjob' : Job.batchJob p fps ph2 ∈ s.jobs := by
      rcases htj _ hjob with h | ⟨ph3, hEq⟩
      · exact h
      · exact Job.noConfusion hEq
    rw [hlook] at hlk
    cases horig : lookup s.docs p with
    | none => rw [horig] at hlk; cases hlk
    | some P =>
      rw [horig] at hlk
      simp only [Option.map_some'] at hlk
      by_cases h : P.id == docId
      · exfalso
        have hP0 : lookup s.docs docId = some P := by
          have hPid : P.id = p := (lookup_mem horig).2
          rw [show docId = P.id by simpa using (by simpa using h : P.id = docId).symm, hPid]
          exact horig
        obtain ⟨_, hcf⟩ := hclean P hP0
        obtain ⟨hct, _⟩ := batP p fps ph2 P hjob' horig
        rw [hcf] at hct
        cases hct
      · rw [if_neg h] at hlk
        injection hlk with hPP
        subst hPP
        exact batP p fps ph2 P hjob' horig
  · -- batchCount
    intro p
    exact Nat.le_trans (htcount p) (batC p)

theorem inv_processStart (s : Sys) (docId : Nat) (fp : List Char)
    (hj : Job.processJob docId fp false ∈ s.jobs) (hI : Inv s) :
    Inv (processStartSys s docId fp) := by
  refine inv_procUpd s docId fp false hj
    (fun d => { d with status := St.processing }) (fun d => rfl) (fun d => rfl) (fun d => rfl)
    (processStartSys s docId fp) rfl rfl ?_ ?_ hI
  · intro j hjm
    rcases mem_erase_append hjm with h | h
    · exact Or.inl h
    · by_cases hcase : (lookup s.docs docId).isSome
      · rw [if_pos hcase] at h
        exact Or.inr ⟨true, List.mem_singleton.mp h⟩
      · rw [if_neg hcase] at h
        cases h
  · intro p
    show countBatch p (s.jobs.erase (Job.processJob docId fp false) ++
      (if (lookup s.docs docId).isSome then [Job.processJob docId fp true] else [])) ≤ _
    rw [countBatch_append]
    have h2 : countBatch p
        (if (lookup s.docs docId).isSome then [Job.processJob docId fp true] else []) = 0 := by
      by_cases hcase : (lookup s.docs docId).isSome
      · rw [if_pos hcase]
        simp [countBatch, isBatchFor]
      · rw [if_neg hcase]
        rfl
    rw [h2]
    have := countBatch_erase_le p s.jobs (Job.processJob docId fp false)
    omega

theorem siblingCheck_nil_of_clean (reg : Reg) (docId : Nat)
    (h : ∀ D0, lookup reg docId = some D0 → D0.parentId = none) :
    siblingCheck reg docId = [] := by
  unfold siblingCheck
  cases hl : lookup reg docId with
  | none => rfl
  | some d => simp [h d hl]

theorem inv_processFinishSuccess (s : Sys) (docId : Nat) (fp : List Char)
    (hj : Job.processJob docId fp true ∈ s.jobs) (hI : Inv s) :
    Inv (processFinishSuccessSys s docId fp) := by
  set f := fun d : Doc => { d with
      status := St.completed,
      outputTxt := some (joinPath (dirnameOf fp) (stemOf (basenameOf fp) ++ ".txt".toList)),
      outputPdf := some (joinPath (dirnameOf fp) (stemOf (basenameOf fp) ++ ".pdf".toList)) }
    with hfdef
  have hsib : siblingCheck (procSuccessCommit s.docs docId fp) docId = [] := by
    apply siblingCheck_nil_of_clean
    intro D0 hl
    have hl2 : lookup (updDoc docId f s.docs) docId = some D0 := hl
    rw [lookup_updDoc s.docs docId docId f (fun d => rfl)] at hl2
    replace hl := hl2
    cases horig : lookup s.docs docId with
    | none => rw [horig] at hl; cases hl
    | some E =>
      rw [horig] at hl
      simp only [Option.map_some'] at hl
      obtain ⟨hpar, _⟩ := hI.procTargets docId fp true E hj horig
      cases hl
      by_cases h : E.id == docId
      · rw [if_pos h]
        exact hpar
      · rw [if_neg h]
        exact hpar
  refine inv_procUpd s docId fp true hj f (fun d => rfl) (fun d => rfl) (fun d => rfl)
    (processFinishSuccessSys s docId fp) rfl rfl ?_ ?_ hI
  · intro j hjm
    have : j ∈ s.jobs.erase (Job.processJob docId fp true) ++ [] := by
      have hjobs : (processFinishSuccessSys s docId fp).jobs =
          s.jobs.erase (Job.processJob docId fp true) ++
            siblingCheck (procSuccessCommit s.docs docId fp) docId := rfl
      rw [hjobs, hsib] at hjm
      exact hjm
    rw [List.append_nil] at this
    exact Or.inl (List.mem_of_mem_erase this)
  · intro p
    show countBatch p (s.jobs.erase (Job.processJob docId fp true) ++
      siblingCheck (procSuccessCommit s.docs docId fp) docId) ≤ _
    rw [hsib, List.append_nil]
    exact countBatch_erase_le p s.jobs _

theorem inv_processFinishFail (s : Sys) (docId : Nat) (fp : List Char)
    (outputLines : List (List Char))
    (hj : Job.processJob docId fp true ∈ s.jobs) (hI : Inv s) :
    Inv (processFinishFailSys s docId fp outputLines) := by
  refine inv_procUpd s docId fp true hj
    (fun d => { d with status := St.error, errorMessage := some (procFailMsg outputLines) })
    (fun d => rfl) (fun d => rfl) (fun d => rfl)
    (processFinishFailSys s docId fp outputLines) rfl rfl ?_ ?_ hI
  · intro j hjm
    exact Or.inl (List.mem_of_mem_erase hjm)
  · intro p
    exact countBatch_erase_le p s.jobs _

theorem updDoc_eq_of_none (reg : Reg) (i : Nat) (f : Doc → Doc)
    (h : lookup reg i = none) : updDoc i f reg = reg := by
  unfold updDoc
  unfold lookup at h
  rw [List.find?_eq_none] at h
  have : ∀ d ∈ reg, (if d.id == i then f d else d) = id d := by
    intro d hd
    have := h d hd
    simp only [id]
    rw [if_neg (by simpa using this)]
  rw [List.map_congr_left this, List.map_id]

/-- The invariant is preserved by any commit of `rebuild_pdf_task`: the task
rewrites only its own document's status. -/
theorem inv_rebuildUpd (s : Sys) (docId : Nat) (fp : List Char) (ph : Bool)
    (hj : Job.rebuildJob docId fp ph ∈ s.jobs)
    (f : Doc → Doc)
    (hfid : ∀ d, (f d).id = d.id) (hfpar : ∀ d, (f d).parentId = d.parentId)
    (hfcont : ∀ d, (f d).isContainer = d.isContainer)
    (t : Sys)
    (htd : t.docs = updDoc docId f s.docs)
    (htn : t.next = s.next)
    (htj : ∀ j, j ∈ t.jobs → j ∈ s.jobs ∨ ∃ ph2, j = Job.rebuildJob docId fp ph2)
    (htcount : ∀ p, countBatch p t.jobs ≤ countBatch p s.jobs)
    (hI : Inv s) : Inv t := by
  obtain ⟨idLt, jobLt, nodup, procT, noM, parC, batP, batC⟩ := hI
  have hlook : ∀ i, lookup t.docs i =
      (lookup s.docs i).map (fun d => if d.id == docId then f d else d) := by
    intro i
    rw [htd]
    exact lookup_updDoc s.docs i docId f hfid
  constructor
  · -- idLt
    intro d hd
    rw [htd] at hd
    rw [htn]
    obtain ⟨d0, hd0, rfl⟩ := mem_updDoc hd
    by_cases h : d0.id == docId
    · rw [if_pos h, hfid]
      exact idLt d0 hd0
    · rw [if_neg h]
      exact idLt d0 hd0
  · -- jobLt
    intro j hjm
    rw [htn]
    rcases htj j hjm with h | ⟨ph2, rfl⟩
    · exact jobLt j h
    · simpa using jobLt _ hj
  · -- nodup
    rw [htd, map_id_updDoc s.docs docId f hfid]
    exact nodup
  · -- procTargets
    intro i fp2 ph2 D' hjob hlk
    have hjob' : Job.processJob i fp2 ph2 ∈ s.jobs := by
      rcases htj _ hjob with h | ⟨_, hEq⟩
      · exact h
      · exact Job.noConfusion hEq
    rw [hlook] at hlk
    cases horig : lookup s.docs i with
    | none => rw [horig] at hlk; cases hlk
    | some D0 =>
      rw [horig] at hlk
      simp only [Option.map_some'] at hlk
      obtain ⟨h1, h2⟩ := procT i fp2 ph2 D0 hjob' horig
      cases hlk
      by_cases h : D0.id == docId
      · rw [if_pos h]
        rw [hfpar, hfcont]
        exact ⟨h1, h2⟩
      · rw [if_neg h]
        exact ⟨h1, h2⟩
  · -- noMerge
    intro p ph2 hjob
    rcases htj _ hjob with h | ⟨_, hEq⟩
    · exact noM p ph2 h
    · exact Job.noConfusion hEq
  · -- parentContainer
    intro c' hc' q hq
    rw [htd] at hc'
    obtain ⟨c, hc, rfl⟩ := mem_updDoc hc'
    have hcq : c.parentId = some q := by
      by_cases h : c.id == docId
      · rw [if_pos h, hfpar] at hq
        exact hq
      · rw [if_neg h] at hq
        exact hq
    obtain ⟨Q, hQ, hQc, hQp⟩ := parC c hc q hcq
    refine ⟨if Q.id == docId then f Q else Q, ?_, ?_⟩
    · rw [hlook, hQ]
      rfl
    · by_cases h : Q.id == docId
      · refine ⟨?_, ?_⟩
        · rw [if_pos h, hfcont]
          exact hQc
        · rw [if_pos h, hfpar]
          exact hQp
      · rw [if_neg h]
        exact ⟨hQc, hQp⟩
  · -- batchPhase
    intro p fps ph2 P' hjob hlk
    have hjob' : Job.batchJob p fps ph2 ∈ s.jobs := by
      rcases htj _ hjob with h | ⟨_, hEq⟩
      · exact h
      · exact Job.noConfusion hEq
    rw [hlook] at hlk
    cases horig : lookup s.docs p with
    | none => rw [horig] at hlk; cases hlk
    | some P =>
      rw [horig] at hlk
      simp only [Option.map_some'] at hlk
      obtain ⟨h1, h2⟩ := batP p fps ph2 P hjob' horig
      cases hlk
      by_cases h : P.id == docId
      · rw [if_pos h]
        rw [hfcont, hfpar]
        exact ⟨h1, h2⟩
      · rw [if_neg h]
        exact ⟨h1, h2⟩
  · -- batchCount
    intro p
    exact Nat.le_trans (htcount p) (batC p)

theorem inv_rebuildStart (s : Sys) (docId : Nat) (fp : List Char)
    (hj : Job.rebuildJob docId fp false ∈ s.jobs) (hI : Inv s) :
    Inv (rebuildStartSys s docId fp) := by
  refine inv_rebuildUpd s docId fp false hj
    (fun d => { d with status := St.updatingPdf })
    (fun d => rfl) (fun d => rfl) (fun d => rfl)
    (rebuildStartSys s docId fp) ?_ rfl ?_ ?_ hI
  · show (if (lookup s.docs docId).isSome then rebuildStartCommit s.docs docId else s.docs) = _
    by_cases hcase : (lookup s.docs docId).isSome
    · rw [if_pos hcase]
      rfl
    · rw [if_neg hcase]
      rw [updDoc_eq_of_none]
      simpa using hcase
  · intro j hjm
    rcases mem_erase_append hjm with h | h
    · exact Or.inl h
    · by_cases hcase : (lookup s.docs docId).isSome
      · rw [if_pos hcase] at h
        exact Or.inr ⟨true, List.mem_singleton.mp h⟩
      · rw [if_neg hcase] at h
        cases h
  · intro p
    show countBatch p (s.jobs.erase (Job.rebuildJob docId fp false) ++
      (if (lookup s.docs docId).isSome then [Job.rebuildJob docId fp true] else [])) ≤ _
    rw [countBatch_append]
    have h2 : countBatch p
        (if (lookup s.docs docId).isSome then [Job.rebuildJob docId fp true] else []) = 0 := by
      by_cases hcase : (lookup s.docs docId).isSome
      · rw [if_pos hcase]
        simp [countBatch, isBatchFor]
      · rw [if_neg hcase]
        rfl
    rw [h2]
    have := countBatch_erase_le p s.jobs (Job.rebuildJob docId fp false)
    omega

theorem inv_rebuildFinishSuccess (s : Sys) (docId : Nat) (fp : List Char)
    (hj : Job.rebuildJob docId fp true ∈ s.jobs) (hI : Inv s) :
    Inv (rebuildFinishSuccessSys s docId fp) := by
  refine inv_rebuildUpd s docId fp true hj
    (fun d => { d with status := St.completed })
    (fun d => rfl) (fun d => rfl) (fun d => rfl)
    (rebuildFinishSuccessSys s docId fp) rfl rfl ?_ ?_ hI
  · intro j hjm
    exact Or.inl (List.mem_of_mem_erase hjm)
  · intro p
    exact countBatch_erase_le p s.jobs _

theorem inv_rebuildFinishFail (s : Sys) (docId : Nat) (fp : List Char) (detail : List Char)
    (hj : Job.rebuildJob docId fp true ∈ s.jobs) (hI : Inv s) :
    Inv (rebuildFinishFailSys s docId fp detail) := by
  refine inv_rebuildUpd s docId fp true hj
    (fun d => { d with status := St.error, errorMessage := some detail })
    (fun d => rfl) (fun d => rfl) (fun d => rfl)
    (rebuildFinishFailSys s docId fp detail) rfl rfl ?_ ?_ hI
  · intro j hjm
    exact Or.inl (List.mem_of_mem_erase hjm)
  · intro p
    exact countBatch_erase_le p s.jobs _

/-- A step that leaves the registry alone and only removes jobs keeps the
invariant. -/
theorem inv_jobsShrink (s t : Sys)
    (htd : t.docs = s.docs) (htn : t.next = s.next)
    (htj : ∀ j, j ∈ t.jobs → j ∈ s.jobs)
    (htcount : ∀ p, countBatch p t.jobs ≤ countBatch p s.jobs)
    (hI : Inv s) : Inv t := by
  obtain ⟨idLt, jobLt, nodup, procT, noM, parC, batP, batC⟩ := hI
  constructor
  · intro d hd
    rw [htd] at hd
    rw [htn]
    exact idLt d hd
  · intro j hj
    rw [htn]
    exact jobLt j (htj j hj)
  · rw [htd]
    exact nodup
  · intro i fp ph D hjob hlk
    rw [htd] at hlk
    exact procT i fp ph D (htj _ hjob) hlk
  · intro p ph hjob
    exact noM p ph (htj _ hjob)
  · intro c hc q hq
    rw [htd] at hc
    obtain ⟨Q, hQ, hQc, hQp⟩ := parC c hc q hq
    rw [← htd] at hQ
    exact ⟨Q, hQ, hQc, hQp⟩
  · intro p fps ph P hjob hlk
    rw [htd] at hlk
    exact batP p fps ph P (htj _ hjob) hlk
  · intro p
    exact Nat.le_trans (htcount p) (batC p)

/-- Two batch jobs for the same container cannot be queued at once. -/
theorem batch_twin_absurd {jobs : List Job} {p : Nat} {fps fps2 : List (List Char)}
    {ph ph2 : Bool}
    (hcount : countBatch p jobs ≤ 1)
    (hj : Job.batchJob p fps ph ∈ jobs)
    (htwin : Job.batchJob p fps2 ph2 ∈ jobs.erase (Job.batchJob p fps ph)) : False := by
  have h1 := countBatch_erase_mem p jobs (Job.batchJob p fps ph) hj (by simp [isBatchFor])
  have h2 : 0 < countBatch p (jobs.erase (Job.batchJob p fps ph)) := by
    unfold countBatch
    have hm : Job.batchJob p fps2 ph2 ∈
        (jobs.erase (Job.batchJob p fps ph)).filter (isBatchFor p) :=
      List.mem_filter.mpr ⟨htwin, by simp [isBatchFor]⟩
    exact List.length_pos.mpr (List.ne_nil_of_mem hm)
  omega

theorem updFamily_eq_of_none (reg : Reg) (p : Nat) (fP fC : Doc → Doc)
    (hlp : lookup reg p = none)
    (hnc : ∀ d ∈ reg, d.parentId ≠ some p) : updFamily p fP fC reg = reg := by
  unfold updFamily
  unfold lookup at hlp
  rw [List.find?_eq_none] at hlp
  have h : ∀ d ∈ reg,
      (if d.id == p then fP d else if d.parentId == some p then fC d else d) = id d := by
    intro d hd
    rw [if_neg (by simpa using hlp d hd), if_neg (by simpa using hnc d hd)]
    rfl
  rw [List.map_congr_left h, List.map_id]

/-- Invariant preservation for any commit of `process_batch_task`: parent and
children are rewritten together, and ids, parent pointers and container flags
are untouched. -/
theorem inv_batchUpd (s : Sys) (p : Nat) (fps : List (List Char)) (ph : Bool)
    (hj : Job.batchJob p fps ph ∈ s.jobs)
    (P : Doc) (hP : lookup s.docs p = some P)
    (fP fC : Doc → Doc)
    (hfPid : ∀ d, (fP d).id = d.id) (hfPpar : ∀ d, (fP d).parentId = d.parentId)
    (hfPcont : ∀ d, (fP d).isContainer = d.isContainer)
    (hfCid : ∀ d, (fC d).id = d.id) (hfCpar : ∀ d, (fC d).parentId = d.parentId)
    (hfCcont : ∀ d, (fC d).isContainer = d.isContainer)
    (t : Sys)
    (htd : t.docs = updFamily p fP fC s.docs)
    (htn : t.next = s.next)
    (htj : ∀ j, j ∈ t.jobs → j ∈ s.jobs ∨ ∃ ph2, j = Job.batchJob p fps ph2)
    (htcount : ∀ p0, countBatch p0 t.jobs ≤ 1)
    (hI : Inv s) : Inv t := by
  obtain ⟨idLt, jobLt, nodup, procT, noM, parC, batP, batC⟩ := hI
  obtain ⟨hPmem, hPid⟩ := lookup_mem hP
  obtain ⟨hPcont, hPpar⟩ := batP p fps ph P hj hP
  have hgid : ∀ d : Doc,
      (if d.id == p then fP d else if d.parentId == some p then fC d else d).id = d.id := by
    intro d
    by_cases h : d.id == p
    · rw [if_pos h, hfPid]
    · rw [if_neg h]
      by_cases h2 : d.parentId == some p
      · rw [if_pos h2, hfCid]
      · rw [if_neg h2]
  have hgpar : ∀ d : Doc,
      (if d.id == p then fP d else if d.parentId == some p then fC d else d).parentId
        = d.parentId := by
    intro d
    by_cases h : d.id == p
    · rw [if_pos h, hfPpar]
    · rw [if_neg h]
      by_cases h2 : d.parentId == some p
      · rw [if_pos h2, hfCpar]
      · rw [if_neg h2]
  have hgcont : ∀ d : Doc,
      (if d.id == p then fP d else if d.parentId == some p then fC d else d).isContainer
        = d.isContainer := by
    intro d
    by_cases h : d.id == p
    · rw [if_pos h, hfPcont]
    · rw [if_neg h]
      by_cases h2 : d.parentId == some p
      · rw [if_pos h2, hfCcont]
      · rw [if_neg h2]
  have hlook : ∀ i, lookup t.docs i = (lookup s.docs i).map
      (fun d => if d.id == p then fP d else if d.parentId == some p then fC d else d) := by
    intro i
    rw [htd]
    exact lookup_updFamily s.docs i p fP fC hfPid hfCid
  constructor
  · -- idLt
    intro d hd
    rw [htd] at hd
    rw [htn]
    obtain ⟨d0, hd0, rfl⟩ := mem_updFamily hd
    rw [hgid d0]
    exact idLt d0 hd0
  · -- jobLt
    intro j hjm
    rw [htn]
    rcases htj j hjm with h | ⟨ph2, rfl⟩
    · exact jobLt j h
    · simpa using jobLt _ hj
  · -- nodup
    rw [htd, map_id_updFamily s.docs p fP fC hfPid hfCid]
    exact nodup
  · -- procTargets
    intro i fp2 ph2 D' hjob hlk
    have hjob' : Job.processJob i fp2 ph2 ∈ s.jobs := by
      rcases htj _ hjob with h | ⟨_, hEq⟩
      · exact h
      · exact Job.noConfusion hEq
    rw [hlook] at hlk
    cases horig : lookup s.docs i with
    | none => rw [horig] at hlk; cases hlk
    | some D0 =>
      rw [horig] at hlk
      simp only [Option.map_some'] at hlk
      obtain ⟨h1, h2⟩ := procT i fp2 ph2 D0 hjob' horig
      cases hlk
      rw [hgpar D0, hgcont D0]
      exact ⟨h1, h2⟩
  · -- noMerge
    intro q ph2 hjob
    rcases htj _ hjob with h | ⟨_, hEq⟩
    · exact noM q ph2 h
    · exact Job.noConfusion hEq
  · -- parentContainer
    intro c' hc' q hq
    rw [htd] at hc'
    obtain ⟨c, hc, rfl⟩ := mem_updFamily hc'
    rw [hgpar c] at hq
    obtain ⟨Q, hQ, hQc, hQp⟩ := parC c hc q hq
    refine ⟨if Q.id == p then fP Q else if Q.parentId == some p then fC Q else Q, ?_, ?_, ?_⟩
    · rw [hlook, hQ]
      rfl
    · rw [hgcont Q]
      exact hQc
    · rw [hgpar Q]
      exact hQp
  · -- batchPhase
    intro q gps ph2 P' hjob hlk
    by_cases hq : q = p
    · subst hq
      rw [hlook, hP] at hlk
      simp only [Option.map_some'] at hlk
      rw [if_pos (by simp [hPid])] at hlk
      injection hlk with hPP
      subst hPP
      rw [hfPcont, hfPpar]
      exact ⟨hPcont, hPpar⟩
    · have hjob' : Job.batchJob q gps ph2 ∈ s.jobs := by
        rcases htj _ hjob with h | ⟨ph3, hEq⟩
        · exact h
        · injection hEq with h1 h2 h3
          exact absurd h1 hq
      rw [hlook] at hlk
      cases horig : lookup s.docs q with
      | none => rw [horig] at hlk; cases hlk
      | some Q =>
        rw [horig] at hlk
        simp only [Option.map_some'] at hlk
        obtain ⟨hQc, hQp⟩ := batP q gps ph2 Q hjob' horig
        have hQid : Q.id = q := (lookup_mem horig).2
        rw [if_neg (by simp [hQid, hq]), if_neg (by simp [hQp])] at hlk
        injection hlk with hPP
        subst hPP
        exact ⟨hQc, hQp⟩
  · -- batchCount
    exact htcount

theorem inv_batchStart (s : Sys) (p : Nat) (fps : List (List Char))
    (hj : Job.batchJob p fps false ∈ s.jobs) (hI : Inv s) :
    Inv (batchStartSys s p fps) := by
  cases hl : lookup s.docs p with
  | none =>
    apply inv_jobsShrink s (batchStartSys s p fps) ?_ rfl ?_ ?_ hI
    · show (if (lookup s.docs p).isSome then batchStartCommit s.docs p else s.docs) = s.docs
      rw [hl]
      rfl
    · intro j hjm
      have h2 : j ∈ s.jobs.erase (Job.batchJob p fps false) ++
          (if (lookup s.docs p).isSome then [Job.batchJob p fps true] else []) := hjm
      rw [hl] at h2
      simp only [Option.isSome_none, Bool.false_eq_true, if_false, List.append_nil] at h2
      exact List.mem_of_mem_erase h2
    · intro p0
      show countBatch p0 (s.jobs.erase (Job.batchJob p fps false) ++
        (if (lookup s.docs p).isSome then [Job.batchJob p fps true] else [])) ≤ _
      rw [hl]
      simp only [Option.isSome_none, Bool.false_eq_true, if_false, List.append_nil]
      exact countBatch_erase_le p0 s.jobs _
  | some P =>
    have hsome : (lookup s.docs p).isSome = true := by
      rw [hl]
      rfl
    refine inv_batchUpd s p fps false hj P hl
      (fun d => { d with status := St.processing })
      (fun d => { d with status := St.processing })
      (fun d => rfl) (fun d => rfl) (fun d => rfl)
      (fun d => rfl) (fun d => rfl) (fun d => rfl)
      (batchStartSys s p fps) ?_ rfl ?_ ?_ hI
    · show (if (lookup s.docs p).isSome then batchStartCommit s.docs p else s.docs) = _
      rw [if_pos hsome]
      rfl
    · intro j hjm
      rcases mem_erase_append hjm with h | h
      · exact Or.inl h
      · rw [if_pos hsome] at h
        exact Or.inr ⟨true, List.mem_singleton.mp h⟩
    · intro p0
      show countBatch p0 (s.jobs.erase (Job.batchJob p fps false) ++
        (if (lookup s.docs p).isSome then [Job.batchJob p fps true] else [])) ≤ 1
      rw [if_pos hsome, countBatch_append]
      by_cases hp0 : p0 = p
      · subst hp0
        have h1 := countBatch_erase_mem p0 s.jobs (Job.batchJob p0 fps false) hj
          (by simp [isBatchFor])
        have h2 := hI.batchCount p0
        have h3 : countBatch p0 [Job.batchJob p0 fps true] = 1 := by
          simp [countBatch, isBatchFor]
        omega
      · have h3 : countBatch p0 [Job.batchJob p fps true] = 0 := by
          simp [countBatch, isBatchFor]
          omega
        have h4 := countBatch_erase_le p0 s.jobs (Job.batchJob p fps false)
        have h5 := hI.batchCount p0
        omega

theorem inv_batchFinishSuccess (s : Sys) (p : Nat) (fps : List (List Char))
    (hj : Job.batchJob p fps true ∈ s.jobs) (hI : Inv s) :
    Inv (batchFinishSuccessSys s p fps) := by
  cases hl : lookup s.docs p with
  | none =>
    apply inv_jobsShrink s (batchFinishSuccessSys s p fps) ?_ rfl ?_ ?_ hI
    · show batchSuccessCommit s.docs p = s.docs
      unfold batchSuccessCommit
      rw [hl]
    · intro j hjm
      exact List.mem_of_mem_erase hjm
    · intro p0
      exact countBatch_erase_le p0 s.jobs _
  | some P =>
    refine inv_batchUpd s p fps true hj P hl
      (fun d => { d with
        status := St.completed,
        outputPdf := some (joinPath (docDirOf P) P.filename),
        outputTxt := some (stemOf (joinPath (docDirOf P) P.filename) ++ ".txt".toList) })
      (fun c => { c with
        status := St.completed,
        outputTxt := some (joinPath (docDirOf P) (stemOf c.filename ++ ".txt".toList)) })
      (fun d => rfl) (fun d => rfl) (fun d => rfl)
      (fun d => rfl) (fun d => rfl) (fun d => rfl)
      (batchFinishSuccessSys s p fps) ?_ rfl ?_ ?_ hI
    · show batchSuccessCommit s.docs p = _
      unfold batchSuccessCommit
      rw [hl]
    · intro j hjm
      exact Or.inl (List.mem_of_mem_erase hjm)
    · intro p0
      have h4 := countBatch_erase_le p0 s.jobs (Job.batchJob p fps true)
      have h5 := hI.batchCount p0
      exact Nat.le_trans h4 h5

theorem inv_batchFinishFail (s : Sys) (p : Nat) (fps : List (List Char)) (detail : List Char)
    (hj : Job.batchJob p fps true ∈ s.jobs) (hI : Inv s) :
    Inv (batchFinishFailSys s p fps detail) := by
  cases hl : lookup s.docs p with
  | none =>
    apply inv_jobsShrink s (batchFinishFailSys s p fps detail) ?_ rfl ?_ ?_ hI
    · show batchFailCommit s.docs p detail = s.docs
      unfold batchFailCommit
      apply updFamily_eq_of_none _ _ _ _ hl
      intro d hd hdp
      obtain ⟨Q, hQ, _, _⟩ := hI.parentContainer d hd p hdp
      rw [hl] at hQ
      cases hQ
    · intro j hjm
      exact List.mem_of_mem_erase hjm
    · intro p0
      exact countBatch_erase_le p0 s.jobs _
  | some P =>
    refine inv_batchUpd s p fps true hj P hl
      (fun d => { d with status := St.error, errorMessage := some detail })
      (fun c => { c with
        status := St.error, errorMessage := some "Batch processing failed".toList })
      (fun d => rfl) (fun d => rfl) (fun d => rfl)
      (fun d => rfl) (fun d => rfl) (fun d => rfl)
      (batchFinishFailSys s p fps detail) rfl rfl ?_ ?_ hI
    · intro j hjm
      exact Or.inl (List.mem_of_mem_erase hjm)
    · intro p0
      have h4 := countBatch_erase_le p0 s.jobs (Job.batchJob p fps true)
      have h5 := hI.batchCount p0
      exact Nat.le_trans h4 h5

theorem inv_mergeStart (s : Sys) (p : Nat)
    (hj : Job.mergeJob p false ∈ s.jobs) (hI : Inv s) : Inv (mergeStartSys s p) :=
  absurd hj (hI.noMerge p false)

theorem inv_mergeFinishSuccess (s : Sys) (p : Nat)
    (hj : Job.mergeJob p true ∈ s.jobs) (hI : Inv s) : Inv (mergeFinishSuccessSys s p) :=
  absurd hj (hI.noMerge p true)

theorem inv_mergeFinishFail (s : Sys) (p : Nat) (detail : List Char)
    (hj : Job.mergeJob p true ∈ s.jobs) (hI : Inv s) : Inv (mergeFinishFailSys s p detail) :=
  absurd hj (hI.noMerge p true)

/-- Every step of the orchestrator preserves the invariant. -/
theorem inv_step {s t : Sys} (hI : Inv s) (hst : Step s t) : Inv t := by
  cases hst with
  | uploadSingle fname dirName owner => exact inv_uploadSingle s fname dirName owner hI
  | uploadBatch files groupName groupDir owner hne =>
    exact inv_uploadBatch s files groupName groupDir owner hI
  | rebuildReq docId D hD =>
    exact inv_rebuildReq s docId D _ hD hI
  | processStart docId fp hj => exact inv_processStart s docId fp hj hI
  | processFinishSuccess docId fp hj => exact inv_processFinishSuccess s docId fp hj hI
  | processFinishFail docId fp outputLines hj =>
    exact inv_processFinishFail s docId fp outputLines hj hI
  | batchStart p fps hj => exact inv_batchStart s p fps hj hI
  | batchFinishSuccess p fps hj => exact inv_batchFinishSuccess s p fps hj hI
  | batchFinishFail p fps detail hj => exact inv_batchFinishFail s p fps detail hj hI
  | mergeStart p hj => exact inv_mergeStart s p hj hI
  | mergeFinishSuccess p hj => exact inv_mergeFinishSuccess s p hj hI
  | mergeFinishFail p detail hj => exact inv_mergeFinishFail s p detail hj hI
  | rebuildStart docId fp hj => exact inv_rebuildStart s docId fp hj hI
  | rebuildFinishSuccess docId fp hj => exact inv_rebuildFinishSuccess s docId fp hj hI
  | rebuildFinishFail docId fp detail hj => exact inv_rebuildFinishFail s docId fp detail hj hI

/-- Every reachable committed state satisfies the invariant. -/
theorem reach_inv {s : Sys} (h : Reach s) : Inv s := by
  induction h with
  | init => exact inv_init
  | step _ hst ih => exact inv_step ih hst

/-! ## A concrete deployment used as witness and counterexample material -/

/-- Sanitized owner key of the demonstration user. -/
def demoOwner : List Char := "user-example-com".toList

/-- Group directory of the demonstration container upload. -/
def demoDir : List Char := "book-a1b2c3d4".toList

/-- The single page uploaded into the demonstration container. -/
def demoFiles : List (List Char) := ["page1.jpg".toList]

/-- After `POST /api/upload-batch`: container 0 and child 1, batch job queued. -/
def sysUpload : Sys := uploadBatchSys initSys demoFiles "book.pdf".toList demoDir demoOwner

def demoFps : List (List Char) := batchFilePaths demoOwner demoDir demoFiles

/-- After the batch job's first commit. -/
def sysBatchStarted : Sys := batchStartSys sysUpload 0 demoFps

/-- After the batch job's success commit: container and child `completed`. -/
def sysBatchDone : Sys := batchFinishSuccessSys sysBatchStarted 0 demoFps

/-- The child row in `sysBatchDone` (defaulting arbitrarily if absent). -/
def demoChildDone : Doc :=
  match lookup sysBatchDone.docs 1 with
  | some d => d
  | none => mkSingleDoc 0 [] [] []

/-- The parent row in `sysBatchDone`. -/
def demoParentDone : Doc :=
  match lookup sysBatchDone.docs 0 with
  | some d => d
  | none => mkSingleDoc 0 [] [] []

/-- The parent row in `sysBatchStarted`. -/
def demoParentStarted : Doc :=
  match lookup sysBatchStarted.docs 0 with
  | some d => d
  | none => mkSingleDoc 0 [] [] []

def demoChildFp : List Char := joinPath (docDirOf demoChildDone) demoChildDone.filename

/-- After `POST /api/rebuild-pdf/1` on the completed child. -/
def sysChildRebuildReq : Sys := rebuildReqSys sysBatchDone 1 demoChildFp

/-- After `rebuild_pdf_task`'s first commit on the child. -/
def sysChildRebuilding : Sys := rebuildStartSys sysChildRebuildReq 1 demoChildFp

/-- The parent row in `sysChildRebuilding`. -/
def demoParentRebuilding : Doc :=
  match lookup sysChildRebuilding.docs 0 with
  | some d => d
  | none => mkSingleDoc 0 [] [] []

/-- The child row in `sysChildRebuilding`. -/
def demoChildRebuilding : Doc :=
  match lookup sysChildRebuilding.docs 1 with
  | some d => d
  | none => mkSingleDoc 0 [] [] []

theorem reach_sysUpload : Reach sysUpload :=
  Reach.step Reach.init
    (Step.uploadBatch initSys demoFiles ("book.pdf".toList) demoDir demoOwner (by decide))

theorem reach_sysBatchStarted : Reach sysBatchStarted :=
  Reach.step reach_sysUpload (Step.batchStart sysUpload 0 demoFps (by decide))

theorem reach_sysBatchDone : Reach sysBatchDone :=
  Reach.step reach_sysBatchStarted (Step.batchFinishSuccess sysBatchStarted 0 demoFps (by decide))

theorem reach_sysChildRebuildReq : Reach sysChildRebuildReq :=
  Reach.step reach_sysBatchDone
    (Step.rebuildReq sysBatchDone 1 demoChildDone (by decide))

theorem reach_sysChildRebuilding : Reach sysChildRebuilding :=
  Reach.step reach_sysChildRebuildReq
    (Step.rebuildStart sysChildRebuildReq 1 demoChildFp (by decide))

/-! ## C1: container completion vs. children -/

/-- C1 (counterexample): the claim "whenever a container is completed, every
child is completed, and no job commits a state violating this" is false on
the code: after a grouped upload completes, requesting a PDF rebuild of one
child makes `rebuild_pdf_task` commit (tasks.py 482-483) a state in which the
container is still `completed` while the child is `updating_pdf`. -/
theorem c1_counterexample :
    Reach sysChildRebuilding ∧
    demoParentRebuilding ∈ sysChildRebuilding.docs ∧
    demoParentRebuilding.isContainer = true ∧
    demoParentRebuilding.status = St.completed ∧
    demoChildRebuilding ∈ sysChildRebuilding.docs ∧
    demoChildRebuilding.parentId = some demoParentRebuilding.id ∧
    demoChildRebuilding.status ≠ St.completed :=
  ⟨reach_sysChildRebuilding, by decide, by decide, by decide, by decide, by decide, by decide⟩

/-- A registry in which some completed container has a non-completed child —
the state C1 forbids. -/
def violation (reg : Reg) : Prop :=
  ∃ P ∈ reg, P.isContainer = true ∧ P.status = St.completed ∧
    ∃ c ∈ reg, c.parentId = some P.id ∧ c.status ≠ St.completed

instance (reg : Reg) : Decidable (violation reg) := by
  unfold violation
  infer_instance

/-- `updDoc` aimed at a parentless non-container — the shape of every
process-job commit — cannot introduce a violation. -/
theorem violation_updDoc (reg : Reg) (i : Nat) (f : Doc → Doc)
    (hfpar : ∀ d, (f d).parentId = d.parentId)
    (hfcont : ∀ d, (f d).isContainer = d.isContainer)
    (hclean : ∀ D0 ∈ reg, D0.id = i → D0.parentId = none ∧ D0.isContainer = false)
    (hnv : ¬ violation reg) : ¬ violation (updDoc i f reg) := by
  rintro ⟨P', hP', hcont', hst', c', hc', hpar', hne'⟩
  obtain ⟨P, hP, rfl⟩ := mem_updDoc hP'
  obtain ⟨c, hc, rfl⟩ := mem_updDoc hc'
  by_cases hPi : P.id == i
  · have h2 := (hclean P hP (by simpa using hPi)).2
    rw [if_pos hPi, hfcont, h2] at hcont'
    cases hcont'
  · rw [if_neg hPi] at hcont' hst' hpar'
    by_cases hci : c.id == i
    · have h1 := (hclean c hc (by simpa using hci)).1
      rw [if_pos hci, hfpar, h1] at hpar'
      cases hpar'
    · rw [if_neg hci] at hpar' hne'
      exact hnv ⟨P, hP, hcont', hst', c, hc, hpar', hne'⟩

/-- `updFamily` of the batch-job shape cannot introduce a violation: the
target parent is a root, parent pointers and container flags are preserved,
and either the parent's new status is not `completed` or every child is set
`completed` together with it (the success commit). -/
theorem violation_updFamily (reg : Reg) (p : Nat) (fP fC : Doc → Doc)
    (hfPid : ∀ d, (fP d).id = d.id) (hfPpar : ∀ d, (fP d).parentId = d.parentId)
    (hfCid : ∀ d, (fC d).id = d.id) (hfCpar : ∀ d, (fC d).parentId = d.parentId)
    (hroot : ∀ P0 ∈ reg, P0.id = p → P0.parentId = none)
    (hparC : ∀ c ∈ reg, ∀ q, c.parentId = some q →
      ∀ Q ∈ reg, Q.id = q → Q.parentId = none)
    (hsafe : (∀ d, (fP d).status ≠ St.completed) ∨ (∀ d, (fC d).status = St.completed))
    (hnv : ¬ violation reg) : ¬ violation (updFamily p fP fC reg) := by
  rintro ⟨P', hP', hcont', hst', c', hc', hpar', hne'⟩
  obtain ⟨P, hP, rfl⟩ := mem_updFamily hP'
  obtain ⟨c, hc, rfl⟩ := mem_updFamily hc'
  by_cases hPp : P.id == p
  · -- the pair's container is the rewritten parent
    rw [if_pos hPp] at hcont' hst' hpar'
    rcases hsafe with hL | hR
    · exact hL P hst'
    · rw [hfPid] at hpar'
      have hPidp : P.id = p := by simpa using hPp
      by_cases hcp : c.id == p
      · rw [if_pos hcp, hfPpar, hroot c hc (by simpa using hcp)] at hpar'
        cases hpar'
      · rw [if_neg hcp] at hpar' hne'
        by_cases hcc : c.parentId == some p
        · rw [if_pos hcc] at hne'
          exact hne' (hR c)
        · rw [if_neg hcc] at hpar' hne'
          rw [hPidp] at hpar'
          exact absurd hpar' (by simpa using hcc)
  · rw [if_neg hPp] at hcont' hst' hpar'
    by_cases hPc : P.parentId == some p
    · -- the pair's container would be a rewritten child: but the parent of
      -- its own children must be a root, and P is not
      rw [if_pos hPc] at hcont' hst' hpar'
      rw [hfCid] at hpar'
      by_cases hcp : c.id == p
      · rw [if_pos hcp, hfPpar, hroot c hc (by simpa using hcp)] at hpar'
        cases hpar'
      · rw [if_neg hcp] at hpar'
        by_cases hcc : c.parentId == some p
        · rw [if_pos hcc, hfCpar] at hpar'
          have h3 : c.parentId = some p := by simpa using hcc
          rw [h3] at hpar'
          injection hpar' with hpe
          exact hPp (by simp [hpe.symm])
        · rw [if_neg hcc] at hpar'
          have h4 := hparC c hc P.id hpar' P hP rfl
          rw [h4] at hPc
          simp at hPc
    · -- the pair's container is untouched
      rw [if_neg hPc] at hcont' hst' hpar'
      by_cases hcp : c.id == p
      · rw [if_pos hcp, hfPpar, hroot c hc (by simpa using hcp)] at hpar'
        cases hpar'
      · rw [if_neg hcp] at hpar' hne'
        by_cases hcc : c.parentId == some p
        · rw [if_pos hcc, hfCpar] at hpar'
          have h3 : c.parentId = some p := by simpa using hcc
          rw [h3] at hpar'
          injection hpar' with hpe
          exact hPp (by simp [hpe.symm])
        · rw [if_neg hcc] at hpar' hne'
          exact hnv ⟨P, hP, hcont', hst', c, hc, hpar', hne'⟩

/-- C1 (amended): the original invariant is refuted by the counterexample,
and no status-only weakening of it survives either, because the rebuild
endpoint accepts a container as soon as its combined artifact exists on disk
— which happens mid-batch, before the batch success commit. What the code
does guarantee: from any reachable violation-free state, the two upload
endpoints and every commit of the process and batch jobs leave the registry
free of completed containers with non-completed children (the batch success
commit completes the container and all its children in the same atomic
commit). The merge job is never enqueued in the live flow (`Inv.noMerge`),
so among the orchestrator's reachable transitions only the rebuild job's
commits can introduce such a state. -/
theorem c1_container_completed_children (s : Sys) (h : Reach s)
    (hnv : ¬ violation s.docs) :
    (∀ fname dirName owner, ¬ violation (uploadSingleSys s fname dirName owner).docs) ∧
    (∀ files gname gdir owner, ¬ violation (uploadBatchSys s files gname gdir owner).docs) ∧
    (∀ docId fp, Job.processJob docId fp false ∈ s.jobs →
      ¬ violation (processStartSys s docId fp).docs) ∧
    (∀ docId fp, Job.processJob docId fp true ∈ s.jobs →
      ¬ violation (processFinishSuccessSys s docId fp).docs) ∧
    (∀ docId fp lines, Job.processJob docId fp true ∈ s.jobs →
      ¬ violation (processFinishFailSys s docId fp lines).docs) ∧
    (∀ p fps, Job.batchJob p fps false ∈ s.jobs →
      ¬ violation (batchStartSys s p fps).docs) ∧
    (∀ p fps, Job.batchJob p fps true ∈ s.jobs →
      ¬ violation (batchFinishSuccessSys s p fps).docs) ∧
    (∀ p fps detail, Job.batchJob p fps true ∈ s.jobs →
      ¬ violation (batchFinishFailSys s p fps detail).docs) := by
  have hI := reach_inv h
  have hparC : ∀ c ∈ s.docs, ∀ q, c.parentId = some q →
      ∀ Q ∈ s.docs, Q.id = q → Q.parentId = none := by
    intro c hc q hq Q hQ hQid
    obtain ⟨Q', hQ', _, hQ'p⟩ := hI.parentContainer c hc q hq
    have hlq : lookup s.docs q = some Q := by
      have := lookup_self hI.nodup hQ
      rwa [hQid] at this
    rw [hlq] at hQ'
    injection hQ' with hE
    rw [hE]
    exact hQ'p
  have hclean : ∀ docId fp ph, Job.processJob docId fp ph ∈ s.jobs →
      ∀ D0 ∈ s.docs, D0.id = docId → D0.parentId = none ∧ D0.isContainer = false := by
    intro docId fp ph hj D0 hD0 hD0id
    have hl : lookup s.docs docId = some D0 := by
      have := lookup_self hI.nodup hD0
      rwa [hD0id] at this
    exact hI.procTargets docId fp ph D0 hj hl
  have hroot : ∀ p fps ph, Job.batchJob p fps ph ∈ s.jobs →
      ∀ P0 ∈ s.docs, P0.id = p → P0.parentId = none := by
    intro p fps ph hj P0 hP0 hP0id
    have hl : lookup s.docs p = some P0 := by
      have := lookup_self hI.nodup hP0
      rwa [hP0id] at this
    exact (hI.batchPhase p fps ph P0 hj hl).2
  refine ⟨?_, ?_, ?_, ?_, ?_, ?_, ?_, ?_⟩
  · -- POST /api/upload: the new row is a parentless, queued non-container
    intro fname dirName owner
    rintro ⟨P', hP', hcont', hst', c', hc', hpar', hne'⟩
    have hdocs : (uploadSingleSys s fname dirName owner).docs =
        s.docs ++ [mkSingleDoc s.next fname dirName owner] := rfl
    rw [hdocs] at hP' hc'
    rcases List.mem_append.mp hP' with hPm | hPm
    · rcases List.mem_append.mp hc' with hcm | hcm
      · exact hnv ⟨P', hPm, hcont', hst', c', hcm, hpar', hne'⟩
      · rcases List.mem_singleton.mp hcm with rfl
        simp [mkSingleDoc] at hpar'
    · rcases List.mem_singleton.mp hPm with rfl
      simp [mkSingleDoc] at hst'
  · -- POST /api/upload-batch: fresh container (not completed) and fresh
    -- children of that container only
    intro files gname gdir owner
    rintro ⟨P', hP', hcont', hst', c', hc', hpar', hne'⟩
    have hdocs : (uploadBatchSys s files gname gdir owner).docs =
        s.docs ++ mkBatchParent s.next gname gdir owner ::
          mkBatchChildren (s.next + 1) s.next files gdir owner := rfl
    rw [hdocs] at hP' hc'
    rcases List.mem_append.mp hP' with hPm | hPm
    · rcases List.mem_append.mp hc' with hcm | hcm
      · exact hnv ⟨P', hPm, hcont', hst', c', hcm, hpar', hne'⟩
      · rcases List.mem_cons.mp hcm with rfl | hcm
        · simp [mkBatchParent] at hpar'
        · obtain ⟨k, _, _, hcpar, _, _, _⟩ := mem_mkBatchChildren hcm
          rw [hcpar] at hpar'
          injection hpar' with hpe
          have := hI.idLt P' hPm
          omega
    · rcases List.mem_cons.mp hPm with rfl | hPm
      · simp [mkBatchParent] at hst'
      · obtain ⟨k, _, _, _, _, hccont, _⟩ := mem_mkBatchChildren hPm
        rw [hccont] at hcont'
        cases hcont'
  · -- process_document_task first commit
    intro docId fp hj
    have hdocs : (processStartSys s docId fp).docs =
        updDoc docId (fun d => { d with status := St.processing }) s.docs := rfl
    rw [hdocs]
    exact violation_updDoc s.docs docId _ (fun d => rfl) (fun d => rfl)
      (hclean docId fp false hj) hnv
  · -- process_document_task success commit
    intro docId fp hj
    have hdocs : (processFinishSuccessSys s docId fp).docs =
        updDoc docId (fun d => { d with
          status := St.completed,
          outputTxt := some (joinPath (dirnameOf fp) (stemOf (basenameOf fp) ++ ".txt".toList)),
          outputPdf := some (joinPath (dirnameOf fp) (stemOf (basenameOf fp) ++ ".pdf".toList)) })
          s.docs := rfl
    rw [hdocs]
    exact violation_updDoc s.docs docId _ (fun d => rfl) (fun d => rfl)
      (hclean docId fp true hj) hnv
  · -- process_document_task failure commit
    intro docId fp lines hj
    have hdocs : (processFinishFailSys s docId fp lines).docs =
        updDoc docId
          (fun d => { d with status := St.error, errorMessage := some (procFailMsg lines) })
          s.docs := rfl
    rw [hdocs]
    exact violation_updDoc s.docs docId _ (fun d => rfl) (fun d => rfl)
      (hclean docId fp true hj) hnv
  · -- process_batch_task first commit: nothing becomes completed
    intro p fps hj
    have hdocs : (batchStartSys s p fps).docs =
        if (lookup s.docs p).isSome then batchStartCommit s.docs p else s.docs := rfl
    rw [hdocs]
    by_cases hcase : (lookup s.docs p).isSome
    · rw [if_pos hcase]
      exact violation_updFamily s.docs p
        (fun d => { d with status := St.processing })
        (fun c => { c with status := St.processing })
        (fun d => rfl) (fun d => rfl) (fun d => rfl) (fun d => rfl)
        (hroot p fps false hj) hparC
        (Or.inl (fun d hcon => St.noConfusion hcon)) hnv
    · rw [if_neg hcase]
      exact hnv
  · -- process_batch_task success commit: container and children completed
    -- in the same commit
    intro p fps hj
    have hdocs : (batchFinishSuccessSys s p fps).docs = batchSuccessCommit s.docs p := rfl
    rw [hdocs]
    cases hl : lookup s.docs p with
    | none =>
      unfold batchSuccessCommit
      rw [hl]
      exact hnv
    | some P =>
      unfold batchSuccessCommit
      rw [hl]
      exact violation_updFamily s.docs p
        (fun d => { d with
          status := St.completed,
          outputPdf := some (joinPath (docDirOf P) P.filename),
          outputTxt := some (stemOf (joinPath (docDirOf P) P.filename) ++ ".txt".toList) })
        (fun c => { c with
          status := St.completed,
          outputTxt := some (joinPath (docDirOf P) (stemOf c.filename ++ ".txt".toList)) })
        (fun d => rfl) (fun d => rfl) (fun d => rfl) (fun d => rfl)
        (hroot p fps true hj) hparC
        (Or.inr (fun d => rfl)) hnv
  · -- process_batch_task failure commit: everything becomes error
    intro p fps detail hj
    have hdocs : (batchFinishFailSys s p fps detail).docs =
        batchFailCommit s.docs p detail := rfl
    rw [hdocs]
    exact violation_updFamily s.docs p
      (fun d => { d with status := St.error, errorMessage := some detail })
      (fun c => { c with
        status := St.error, errorMessage := some "Batch processing failed".toList })
      (fun d => rfl) (fun d => rfl) (fun d => rfl) (fun d => rfl)
      (hroot p fps true hj) hparC
      (Or.inl (fun d hcon => St.noConfusion hcon)) hnv

theorem c1_container_completed_children_witness :
    (∀ fname dirName owner,
      ¬ violation (uploadSingleSys sysUpload fname dirName owner).docs) ∧
    (∀ files gname gdir owner,
      ¬ violation (uploadBatchSys sysUpload files gname gdir owner).docs) ∧
    (∀ docId fp, Job.processJob docId fp false ∈ sysUpload.jobs →
      ¬ violation (processStartSys sysUpload docId fp).docs) ∧
    (∀ docId fp, Job.processJob docId fp true ∈ sysUpload.jobs →
      ¬ violation (processFinishSuccessSys sysUpload docId fp).docs) ∧
    (∀ docId fp lines, Job.processJob docId fp true ∈ sysUpload.jobs →
      ¬ violation (processFinishFailSys sysUpload docId fp lines).docs) ∧
    (∀ p fps, Job.batchJob p fps false ∈ sysUpload.jobs →
      ¬ violation (batchStartSys sysUpload p fps).docs) ∧
    (∀ p fps, Job.batchJob p fps true ∈ sysUpload.jobs →
      ¬ violation (batchFinishSuccessSys sysUpload p fps).docs) ∧
    (∀ p fps detail, Job.batchJob p fps true ∈ sysUpload.jobs →
      ¬ violation (batchFinishFailSys sysUpload p fps detail).docs) :=
  c1_container_completed_children sysUpload reach_sysUpload (by decide)

/-- The source file path the rebuild endpoint computes for the container. -/
def demoParentFp : List Char :=
  joinPath (docDirOf demoParentStarted) demoParentStarted.filename

/-- `POST /api/rebuild-pdf/0` fired while the batch job is running: the
combined artifact is on disk from the moment the pipeline writes it
(tasks.py 296), before the success commit (tasks.py 351), so the endpoint's
`os.path.exists` check passes and the container goes to `updating_pdf`. -/
def sysMidRebuildReq : Sys := rebuildReqSys sysBatchStarted 0 demoParentFp

/-- After `rebuild_pdf_task`'s first commit on the container. -/
def sysMidRebuilding : Sys := rebuildStartSys sysMidRebuildReq 0 demoParentFp

/-- After `rebuild_pdf_task`'s success commit on the container. -/
def sysMidRebuilt : Sys := rebuildFinishSuccessSys sysMidRebuilding 0 demoParentFp

theorem reach_sysMidRebuilt : Reach sysMidRebuilt :=
  Reach.step (Reach.step (Reach.step reach_sysBatchStarted
    (Step.rebuildReq sysBatchStarted 0 demoParentStarted (by decide)))
    (Step.rebuildStart sysMidRebuildReq 0 demoParentFp (by decide)))
    (Step.rebuildFinishSuccess sysMidRebuilding 0 demoParentFp (by decide))

/-- Why the amendment cannot remain a state invariant: the mid-batch
container rebuild ends in a reachable committed state whose container is
`completed` while its child is still `processing`. -/
theorem midbatch_rebuild_violation :
    Reach sysMidRebuilt ∧ violation sysMidRebuilt.docs :=
  ⟨reach_sysMidRebuilt, by decide⟩

/-! ## C9: the status state machine -/

/-- Modelled from the spec: the legal status transitions of §4.1
(`queued → processing → {completed | error}`; `completed → updating_pdf` and
`completed → merging` for the rebuild and merge entries; `error` re-entry
from `processing`, `merging`, `updating_pdf`; `error → queued` on
resubmission). No state machine exists in the code — statuses are assigned
directly. -/
def specLegalTransition (a b : St) : Prop :=
  (a = .queued ∧ b = .processing) ∨
  (a = .processing ∧ (b = .completed ∨ b = .error)) ∨
  (a = .completed ∧ (b = .updatingPdf ∨ b = .merging)) ∨
  (a = .merging ∧ (b = .completed ∨ b = .error)) ∨
  (a = .updatingPdf ∧ (b = .completed ∨ b = .error)) ∨
  (a = .error ∧ b = .queued)

instance (a b : St) : Decidable (specLegalTransition a b) := by
  unfold specLegalTransition
  infer_instance

/-- The child row of the fresh upload (status `queued`). -/
def demoChildQueued : Doc :=
  match lookup sysUpload.docs 1 with
  | some d => d
  | none => mkSingleDoc 0 [] [] []

def demoQueuedFp : List Char := joinPath (docDirOf demoChildQueued) demoChildQueued.filename

/-- `POST /api/rebuild-pdf/1` fired while the batch job is still queued: the
child's uploaded source image exists, so the endpoint accepts and the child
becomes `updating_pdf`. -/
def sysQueuedRebuildReq : Sys := rebuildReqSys sysUpload 1 demoQueuedFp

/-- The batch job's first commit then drives the child from `updating_pdf`
straight to `processing`. -/
def sysStartAfterRebuild : Sys := batchStartSys sysQueuedRebuildReq 0 demoFps

def demoChildUpdPdf : Doc :=
  match lookup sysQueuedRebuildReq.docs 1 with
  | some d => d
  | none => mkSingleDoc 0 [] [] []

def demoChildProcAfter : Doc :=
  match lookup sysStartAfterRebuild.docs 1 with
  | some d => d
  | none => mkSingleDoc 0 [] [] []

theorem reach_sysQueuedRebuildReq : Reach sysQueuedRebuildReq :=
  Reach.step reach_sysUpload
    (Step.rebuildReq sysUpload 1 demoChildQueued (by decide))

/-- C9 (counterexample): a job performs an illegal transition silently. In a
reachable state a child sits at `updating_pdf`; the batch job's first commit
(tasks.py 224-228) moves it to `processing` — a transition outside the spec's
state machine — and reports no failure. -/
theorem c9_counterexample :
    Reach sysQueuedRebuildReq ∧
    Step sysQueuedRebuildReq sysStartAfterRebuild ∧
    demoChildUpdPdf ∈ sysQueuedRebuildReq.docs ∧
    demoChildUpdPdf.id = 1 ∧
    demoChildUpdPdf.status = St.updatingPdf ∧
    demoChildProcAfter ∈ sysStartAfterRebuild.docs ∧
    demoChildProcAfter.id = 1 ∧
    demoChildProcAfter.status = St.processing ∧
    ¬ specLegalTransition St.updatingPdf St.processing :=
  ⟨reach_sysQueuedRebuildReq,
   Step.batchStart sysQueuedRebuildReq 0 demoFps (by decide),
   by decide, by decide, by decide, by decide, by decide, by decide, by decide⟩

/-- C9 (amended): the orchestrator performs no transition validation at all:
`merge_document_task` (tasks.py 377-378) and `rebuild_pdf_task` (tasks.py
482-483) assign `merging` resp. `updating_pdf` unconditionally, whatever the
document's current status — an illegal transition such as `queued → merging`
is silently committed, not failed fast. -/
theorem c9_no_transition_validation (reg : Reg) (p : Nat) (P : Doc)
    (h : lookup reg p = some P) :
    lookup (mergeStartCommit reg p) p = some { P with status := St.merging } ∧
    lookup (rebuildStartCommit reg p) p = some { P with status := St.updatingPdf } := by
  have hPid : P.id = p := (lookup_mem h).2
  constructor
  · unfold mergeStartCommit
    rw [lookup_updDoc reg p p (fun d => { d with status := St.merging }) (fun d => rfl), h]
    simp only [Option.map_some']
    rw [if_pos (by simp [hPid])]
  · unfold rebuildStartCommit
    rw [lookup_updDoc reg p p (fun d => { d with status := St.updatingPdf }) (fun d => rfl), h]
    simp only [Option.map_some']
    rw [if_pos (by simp [hPid])]

/-- A queued container. -/
def demoQueuedContainer : Doc := mkBatchParent 0 ("book.pdf".toList) demoDir demoOwner

theorem c9_no_transition_validation_witness :
    lookup (mergeStartCommit [demoQueuedContainer] 0) 0 =
      some { demoQueuedContainer with status := St.merging } ∧
    lookup (rebuildStartCommit [demoQueuedContainer] 0) 0 =
      some { demoQueuedContainer with status := St.updatingPdf } :=
  c9_no_transition_validation [demoQueuedContainer] 0 demoQueuedContainer (by decide)

/-! ## C2: the sibling-completion merge trigger -/

/-- C2: after a child's success commit, `process_document_task` enqueues the
parent's merge job exactly when the number of the parent's children equals
the number of its completed children (tasks.py 167-181); in particular a
sibling in `error` blocks the merge. -/
theorem c2_merge_trigger (reg : Reg) (docId : Nat) (d : Doc) (p : Nat) (P : Doc)
    (hd : lookup reg docId = some d)
    (hpar : d.parentId = some p)
    (hP : lookup reg p = some P) :
    (siblingCheck reg docId = [Job.mergeJob p false] ↔
      (childrenOf reg p).length =
        ((childrenOf reg p).filter (fun c => c.status == St.completed)).length) ∧
    (∀ c ∈ childrenOf reg p, c.status = St.error → siblingCheck reg docId = []) := by
  have hsc : siblingCheck reg docId =
      (if (childrenOf reg p).length =
          ((childrenOf reg p).filter (fun c => c.status == St.completed)).length
        then [Job.mergeJob p false] else []) := by
    unfold siblingCheck
    rw [hd]
    simp only [hpar, hP]
  constructor
  · rw [hsc]
    constructor
    · intro h
      by_cases hc : (childrenOf reg p).length =
          ((childrenOf reg p).filter (fun c => c.status == St.completed)).length
      · exact hc
      · rw [if_neg hc] at h
        cases h
    · intro hc
      rw [if_pos hc]
  · intro c hc herr
    rw [hsc]
    have hlt : ((childrenOf reg p).filter (fun c => c.status == St.completed)).length <
        (childrenOf reg p).length := by
      apply List.length_filter_lt_length_iff_exists.mpr
      exact ⟨c, hc, by simp [herr]⟩
    rw [if_neg (by omega)]

theorem c2_merge_trigger_witness :
    (siblingCheck sysBatchDone.docs 1 = [Job.mergeJob 0 false] ↔
      (childrenOf sysBatchDone.docs 0).length =
        ((childrenOf sysBatchDone.docs 0).filter (fun c => c.status == St.completed)).length) ∧
    (∀ c ∈ childrenOf sysBatchDone.docs 0, c.status = St.error →
      siblingCheck sysBatchDone.docs 1 = []) :=
  c2_merge_trigger sysBatchDone.docs 1 demoChildDone 0 demoParentDone
    (by decide) (by decide) (by decide)

/-! ## C8: merge failure leaves children untouched -/

/-- C8: when `merge_document_task` fails, the failure commit (tasks.py
465-468) sets only the container to `error` with the detail; every other
row of the registry — the children in particular — reads back entirely
unchanged. -/
theorem c8_merge_failure_frame (reg : Reg) (p : Nat) (P : Doc) (detail : List Char)
    (hnd : (reg.map Doc.id).Nodup) (hP : lookup reg p = some P) :
    lookup (mergeFailCommit reg p detail) p =
      some { P with status := St.error, errorMessage := some detail } ∧
    ∀ c ∈ reg, c.id ≠ p → lookup (mergeFailCommit reg p detail) c.id = some c := by
  have hPid : P.id = p := (lookup_mem hP).2
  constructor
  · unfold mergeFailCommit
    rw [lookup_updDoc reg p p
      (fun d => { d with status := St.error, errorMessage := some detail }) (fun d => rfl), hP]
    simp only [Option.map_some']
    rw [if_pos (by simp [hPid])]
  · intro c hc hcp
    unfold mergeFailCommit
    rw [lookup_updDoc reg c.id p
      (fun d => { d with status := St.error, errorMessage := some detail }) (fun d => rfl),
      lookup_self hnd hc]
    simp only [Option.map_some']
    rw [if_neg (by simp [hcp])]

theorem c8_merge_failure_frame_witness :
    lookup (mergeFailCommit sysBatchDone.docs 0 ("No children found to merge".toList)) 0 =
      some { demoParentDone with
             status := St.error
             errorMessage := some ("No children found to merge".toList) } ∧
    ∀ c ∈ sysBatchDone.docs, c.id ≠ 0 →
      lookup (mergeFailCommit sysBatchDone.docs 0 ("No children found to merge".toList)) c.id
        = some c :=
  c8_merge_failure_frame sysBatchDone.docs 0 demoParentDone _ (by decide) (by decide)

/-! ## C10: batch failure propagates to every child -/

/-- C10: when `process_batch_task` fails, the failure commit (tasks.py
340-348) sets the container to `error` with the exception detail and
overwrites every child — whatever its previous status — to `error` with
error message "Batch processing failed". -/
theorem c10_batch_failure (reg : Reg) (p : Nat) (P : Doc) (detail : List Char)
    (hnd : (reg.map Doc.id).Nodup) (hP : lookup reg p = some P)
    (hproper : ∀ c ∈ childrenOf reg p, c.id ≠ p) :
    lookup (batchFailCommit reg p detail) p =
      some { P with status := St.error, errorMessage := some detail } ∧
    ∀ c ∈ childrenOf reg p, lookup (batchFailCommit reg p detail) c.id =
      some { c with
             status := St.error
             errorMessage := some ("Batch processing failed".toList) } := by
  have hPid : P.id = p := (lookup_mem hP).2
  constructor
  · unfold batchFailCommit
    rw [lookup_updFamily reg p p
      (fun d => { d with status := St.error, errorMessage := some detail })
      (fun c => { c with
        status := St.error, errorMessage := some ("Batch processing failed".toList) })
      (fun d => rfl) (fun d => rfl), hP]
    simp only [Option.map_some']
    rw [if_pos (by simp [hPid])]
  · intro c hc
    obtain ⟨hcm, hcp⟩ := List.mem_filter.mp hc
    unfold batchFailCommit
    rw [lookup_updFamily reg c.id p
      (fun d => { d with status := St.error, errorMessage := some detail })
      (fun c => { c with
        status := St.error, errorMessage := some ("Batch processing failed".toList) })
      (fun d => rfl) (fun d => rfl), lookup_self hnd hcm]
    simp only [Option.map_some']
    rw [if_neg (by simp [hproper c hc]), if_pos hcp]

theorem c10_batch_failure_witness :
    lookup (batchFailCommit sysBatchStarted.docs 0 ("boom".toList)) 0 =
      some { demoParentStarted with status := St.error, errorMessage := some ("boom".toList) } ∧
    ∀ c ∈ childrenOf sysBatchStarted.docs 0,
      lookup (batchFailCommit sysBatchStarted.docs 0 ("boom".toList)) c.id =
        some { c with
               status := St.error
               errorMessage := some ("Batch processing failed".toList) } :=
  c10_batch_failure sysBatchStarted.docs 0 demoParentStarted ("boom".toList)
    (by decide) (by decide) (by decide)

/-! ## C7: the anti-zombie cleanup -/

/-- C7 (counterexample): the claim covers every job kind, but
`merge_document_task`'s finally clause (tasks.py 469-472) performs no
cleanup: with the parent row deleted and the storage directory on disk,
the directory survives the merge job's finalizer (as it does the rebuild
job's, tasks.py 512-515), while the process-task cleanup would remove it. -/
theorem c7_counterexample :
    lookup ([] : Reg) 0 = none ∧
    mergeTaskFinalizeFs [joinPath (userDirOf demoOwner) demoDir] =
      [joinPath (userDirOf demoOwner) demoDir] ∧
    joinPath (userDirOf demoOwner) demoDir ∈
      mergeTaskFinalizeFs [joinPath (userDirOf demoOwner) demoDir] ∧
    rebuildTaskFinalizeFs [joinPath (userDirOf demoOwner) demoDir] =
      [joinPath (userDirOf demoOwner) demoDir] ∧
    zombieCleanup [] 0 (joinPath (userDirOf demoOwner) demoDir)
      [joinPath (userDirOf demoOwner) demoDir] = [] :=
  ⟨rfl, rfl, by decide, rfl, by decide⟩

/-- C7 (amended): only `process_document_task` and `process_batch_task` run
the anti-zombie cleanup (tasks.py 201-211, 353-362): when the registry row is
gone they delete the job's output directory and touch nothing else on disk,
and they write no registry row; `merge_document_task` and `rebuild_pdf_task`
have no such clause and leave the filesystem untouched. -/
theorem c7_zombie_cleanup (reg : Reg) (docId : Nat) (outputDir : List Char) (fs : FS)
    (hgone : lookup reg docId = none) (hnd : fs.Nodup) :
    outputDir ∉ zombieCleanup reg docId outputDir fs ∧
    (∀ d ∈ fs, d ≠ outputDir → d ∈ zombieCleanup reg docId outputDir fs) ∧
    mergeTaskFinalizeFs fs = fs ∧
    rebuildTaskFinalizeFs fs = fs := by
  refine ⟨?_, ?_, rfl, rfl⟩
  · unfold zombieCleanup
    rw [hgone]
    simp only [Option.isNone_none, if_true]
    by_cases hmem : outputDir ∈ fs
    · rw [if_pos hmem]
      intro hcon
      exact ((hnd.mem_erase_iff.mp hcon).1) rfl
    · rw [if_neg hmem]
      exact hmem
  · intro d hd hne
    unfold zombieCleanup
    rw [hgone]
    simp only [Option.isNone_none, if_true]
    by_cases hmem : outputDir ∈ fs
    · rw [if_pos hmem]
      exact hnd.mem_erase_iff.mpr ⟨hne, hd⟩
    · rw [if_neg hmem]
      exact hd

theorem c7_zombie_cleanup_witness :
    joinPath (userDirOf demoOwner) demoDir ∉
      zombieCleanup [] 0 (joinPath (userDirOf demoOwner) demoDir)
        [joinPath (userDirOf demoOwner) demoDir] ∧
    (∀ d ∈ [joinPath (userDirOf demoOwner) demoDir],
      d ≠ joinPath (userDirOf demoOwner) demoDir →
        d ∈ zombieCleanup [] 0 (joinPath (userDirOf demoOwner) demoDir)
          [joinPath (userDirOf demoOwner) demoDir]) ∧
    mergeTaskFinalizeFs [joinPath (userDirOf demoOwner) demoDir] =
      [joinPath (userDirOf demoOwner) demoDir] ∧
    rebuildTaskFinalizeFs [joinPath (userDirOf demoOwner) demoDir] =
      [joinPath (userDirOf demoOwner) demoDir] :=
  c7_zombie_cleanup [] 0 (joinPath (userDirOf demoOwner) demoDir)
    [joinPath (userDirOf demoOwner) demoDir] rfl (by decide)

/-! ## C6: non-zero pipeline exit -/

/-- The outcome dispatch of `process_document_task`: exit code 0 takes the
success path and runs the sibling check; any other exit code raises
`CalledProcessError` (tasks.py 118-120), whose handler records the error
(tasks.py 183-187) and enqueues nothing. -/
def procOutcome (reg : Reg) (docId : Nat) (fp : List Char) (returncode : Int)
    (outputLines : List (List Char)) : Reg × List Job :=
  if returncode = 0 then
    let reg1 := procSuccessCommit reg docId fp
    (reg1, siblingCheck reg1 docId)
  else
    (procFailCommit reg docId outputLines, [])

/-- C6: on a non-zero exit code the document ends in `error`, its error
message carries the diagnostic tail — the last 10 output lines joined with
newlines — as a suffix, and the task enqueues no job at all (no retry, no
merge). -/
theorem c6_pipeline_failure (reg : Reg) (docId : Nat) (fp : List Char)
    (returncode : Int) (outputLines : List (List Char)) (P : Doc)
    (hrc : returncode ≠ 0) (hP : lookup reg docId = some P) :
    lookup (procOutcome reg docId fp returncode outputLines).1 docId =
      some { P with status := St.error, errorMessage := some (procFailMsg outputLines) } ∧
    (procOutcome reg docId fp returncode outputLines).2 = [] ∧
    joinLines (lastN 10 outputLines) <:+ procFailMsg outputLines := by
  have hPid : P.id = docId := (lookup_mem hP).2
  have hout : procOutcome reg docId fp returncode outputLines =
      (procFailCommit reg docId outputLines, []) := by
    unfold procOutcome
    rw [if_neg hrc]
  rw [hout]
  refine ⟨?_, rfl, ?_⟩
  · unfold procFailCommit
    rw [lookup_updDoc reg docId docId
      (fun d => { d with status := St.error, errorMessage := some (procFailMsg outputLines) })
      (fun d => rfl), hP]
    simp only [Option.map_some']
    rw [if_pos (by simp [hPid])]
  · unfold procFailMsg
    exact List.suffix_append _ _

theorem c6_pipeline_failure_witness :
    lookup (procOutcome sysBatchDone.docs 1 demoChildFp 1 ["Traceback".toList]).1 1 =
      some { demoChildDone with
             status := St.error
             errorMessage := some (procFailMsg ["Traceback".toList]) } ∧
    (procOutcome sysBatchDone.docs 1 demoChildFp 1 ["Traceback".toList]).2 = [] ∧
    joinLines (lastN 10 ["Traceback".toList]) <:+ procFailMsg ["Traceback".toList] :=
  c6_pipeline_failure sysBatchDone.docs 1 demoChildFp 1 ["Traceback".toList] demoChildDone
    (by decide) (by decide)

/-! ## Path lemmas for C5 and C4 -/

theorem takeWhile_append_stop (p : Char → Bool) (xs : List Char) (c : Char) (ys : List Char)
    (hxs : ∀ x ∈ xs, p x = true) (hc : p c = false) :
    (xs ++ c :: ys).takeWhile p = xs := by
  induction xs with
  | nil =>
    rw [List.nil_append, List.takeWhile_cons, if_neg (by simp [hc])]
  | cons a l ih =>
    rw [List.cons_append, List.takeWhile_cons,
      if_pos (hxs a (List.mem_cons_self a l)),
      ih (fun x hx => hxs x (List.mem_cons_of_mem a hx))]

theorem basenameOf_join (a f : List Char) (hf : '/' ∉ f) :
    basenameOf (a ++ '/' :: f) = f := by
  unfold basenameOf
  rw [List.reverse_append]
  have h1 : ('/' :: f).reverse = f.reverse ++ ['/'] := by simp
  rw [h1, List.append_assoc, List.singleton_append]
  rw [takeWhile_append_stop (fun c => !(c == '/')) f.reverse '/' a.reverse ?hmem ?hslash]
  · exact List.reverse_reverse f
  case hmem =>
    intro x hx
    have hxf : x ∈ f := List.mem_reverse.mp hx
    have : x ≠ '/' := fun hEq => hf (hEq ▸ hxf)
    simp [this]
  case hslash => simp

theorem getLast?_join (a b : List Char) (hb : b ≠ []) :
    (a ++ '/' :: b).getLast? = b.getLast? := by
  rw [List.getLast?_append]
  have h1 : ('/' :: b).getLast? = b.getLast? := by
    cases b with
    | nil => cases hb rfl
    | cons y ys => rw [List.getLast?_cons_cons]
  rw [h1]
  cases hbl : b.getLast? with
  | none =>
    exfalso
    have := List.getLast?_isSome.mpr hb
    rw [hbl] at this
    cases this
  | some y => rfl

theorem dirnameOf_join (a f : List Char) (hf : '/' ∉ f)
    (hx : ∃ x ∈ a, x ≠ '/') (hlast : a.getLast? ≠ some '/') :
    dirnameOf (a ++ '/' :: f) = a := by
  unfold dirnameOf
  rw [basenameOf_join a f hf]
  have hlen : (a ++ '/' :: f).length - f.length = a.length + 1 := by
    rw [List.length_append, List.length_cons]
    omega
  rw [hlen]
  have htake : (a ++ '/' :: f).take (a.length + 1) = a ++ ['/'] := by
    have h2 := @List.take_append Char a ('/' :: f) 1
    simpa using h2
  rw [htake]
  have hall : ((a ++ ['/']).all (fun c => c == '/')) = false := by
    obtain ⟨x, hxmem, hxne⟩ := hx
    rw [Bool.eq_false_iff]
    intro hcon
    have := List.all_eq_true.mp hcon x (List.mem_append.mpr (Or.inl hxmem))
    exact hxne (by simpa using this)
  rw [if_neg (by simp [hall])]
  have hrev : (a ++ ['/']).reverse = '/' :: a.reverse := by simp
  rw [hrev, List.dropWhile_cons, if_pos (by simp)]
  cases ha : a.reverse with
  | nil =>
    exfalso
    obtain ⟨x, hxmem, _⟩ := hx
    have : x ∈ a.reverse := List.mem_reverse.mpr hxmem
    rw [ha] at this
    cases this
  | cons y ys =>
    have hy : (y == '/') = false := by
      have hhead : a.reverse.head? = some y := by rw [ha]; rfl
      rw [List.head?_reverse] at hhead
      have : y ≠ '/' := by
        intro hEq
        rw [hEq] at hhead
        exact hlast hhead
      simp [this]
    rw [List.dropWhile_cons, if_neg (by simp [hy]), ← ha, List.reverse_reverse]

/-! ## C5: single-document success lifecycle -/

/-- Status of document `i` at state `s`. -/
def statusAt (s : Sys) (i : Nat) : Option St :=
  (lookup s.docs i).map Doc.status

/-- `output_txt_path` of document `i` at state `s`. -/
def outputTxtAt (s : Sys) (i : Nat) : Option (List Char) :=
  (lookup s.docs i).bind Doc.outputTxt

/-- `output_pdf_path` of document `i` at state `s`. -/
def outputPdfAt (s : Sys) (i : Nat) : Option (List Char) :=
  (lookup s.docs i).bind Doc.outputPdf

/-- C5: submitting a single document and running its processing job with exit
code 0 drives the status through `queued → processing → completed`, and the
success commit populates `output_txt_path`/`output_pdf_path` as
`{basename}.txt` / `{basename}.pdf` inside the output directory (the
document's storage directory, recovered as `dirname(file_path)`). -/
theorem c5_single_success (s : Sys) (h : Reach s) (fname dirName owner : List Char)
    (hf : '/' ∉ fname) (hd : dirName ≠ []) (hds : '/' ∉ dirName) :
    statusAt (uploadSingleSys s fname dirName owner) s.next = some St.queued ∧
    statusAt (processStartSys (uploadSingleSys s fname dirName owner) s.next
      (singleFilePath owner dirName fname)) s.next = some St.processing ∧
    statusAt (processFinishSuccessSys
      (processStartSys (uploadSingleSys s fname dirName owner) s.next
        (singleFilePath owner dirName fname)) s.next
      (singleFilePath owner dirName fname)) s.next = some St.completed ∧
    outputTxtAt (processFinishSuccessSys
      (processStartSys (uploadSingleSys s fname dirName owner) s.next
        (singleFilePath owner dirName fname)) s.next
      (singleFilePath owner dirName fname)) s.next =
      some (joinPath (joinPath (userDirOf owner) dirName) (stemOf fname ++ ".txt".toList)) ∧
    outputPdfAt (processFinishSuccessSys
      (processStartSys (uploadSingleSys s fname dirName owner) s.next
        (singleFilePath owner dirName fname)) s.next
      (singleFilePath owner dirName fname)) s.next =
      some (joinPath (joinPath (userDirOf owner) dirName) (stemOf fname ++ ".pdf".toList)) := by
  have hI := reach_inv h
  set storageDir := joinPath (userDirOf owner) dirName with hsd
  set fp := singleFilePath owner dirName fname with hfp
  have hfpeq : fp = storageDir ++ '/' :: fname := rfl
  -- facts about the storage directory
  have hxa : ∃ x ∈ storageDir, x ≠ '/' := by
    refine ⟨'a', ?_, by decide⟩
    have h1 : 'a' ∈ USER_DOCS := by decide
    have h2 : 'a' ∈ userDirOf owner := by
      unfold userDirOf joinPath
      exact List.mem_append.mpr (Or.inl h1)
    rw [hsd]
    unfold joinPath
    exact List.mem_append.mpr (Or.inl h2)
  have hlastd : storageDir.getLast? ≠ some '/' := by
    rw [hsd]
    unfold joinPath
    rw [getLast?_join (userDirOf owner) dirName hd]
    intro hcon
    have hsome := List.getLast?_isSome.mpr hd
    cases hgl : dirName.getLast? with
    | none => rw [hgl] at hsome; cases hsome
    | some y =>
      rw [hgl] at hcon
      injection hcon with hy
      have : y ∈ dirName := List.mem_of_mem_getLast? hgl
      rw [hy] at this
      exact hds this
  have hdir : dirnameOf fp = storageDir := by
    rw [hfpeq]
    exact dirnameOf_join storageDir fname hf hxa hlastd
  have hbase : basenameOf fp = fname := by
    rw [hfpeq]
    exact basenameOf_join storageDir fname hf
  -- the fresh row
  have hfresh : ∀ d ∈ s.docs, d.id ≠ s.next := fun d hd2 => Nat.ne_of_lt (hI.idLt d hd2)
  have hlook1 : lookup (uploadSingleSys s fname dirName owner).docs s.next =
      some (mkSingleDoc s.next fname dirName owner) := by
    show lookup (s.docs ++ [mkSingleDoc s.next fname dirName owner]) s.next = _
    rw [lookup_append_right _ _ _ hfresh]
    unfold lookup
    simp [mkSingleDoc]
  have hlook2 : lookup (processStartSys (uploadSingleSys s fname dirName owner) s.next
      fp).docs s.next =
      some { mkSingleDoc s.next fname dirName owner with status := St.processing } := by
    show lookup (procStartCommit (uploadSingleSys s fname dirName owner).docs s.next) _ = _
    unfold procStartCommit
    rw [lookup_updDoc _ _ _ (fun d => { d with status := St.processing }) (fun d => rfl),
      hlook1]
    simp only [Option.map_some']
    rw [if_pos (by simp [mkSingleDoc])]
  have hlook3 : lookup (processFinishSuccessSys
      (processStartSys (uploadSingleSys s fname dirName owner) s.next fp) s.next fp).docs
        s.next =
      some { mkSingleDoc s.next fname dirName owner with
             status := St.completed
             outputTxt := some (joinPath (dirnameOf fp)
               (stemOf (basenameOf fp) ++ ".txt".toList))
             outputPdf := some (joinPath (dirnameOf fp)
               (stemOf (basenameOf fp) ++ ".pdf".toList)) } := by
    show lookup (procSuccessCommit _ s.next fp) _ = _
    unfold procSuccessCommit
    rw [lookup_updDoc _ _ _ (fun d => { d with
      status := St.completed
      outputTxt := some (joinPath (dirnameOf fp) (stemOf (basenameOf fp) ++ ".txt".toList))
      outputPdf := some (joinPath (dirnameOf fp) (stemOf (basenameOf fp) ++ ".pdf".toList)) })
      (fun d => rfl), hlook2]
    simp only [Option.map_some']
    rw [if_pos (by simp [mkSingleDoc])]
  refine ⟨?_, ?_, ?_, ?_, ?_⟩
  · unfold statusAt
    rw [hlook1]
    rfl
  · unfold statusAt
    rw [hlook2]
    rfl
  · unfold statusAt
    rw [hlook3]
    rfl
  · unfold outputTxtAt
    rw [hlook3]
    show some (joinPath (dirnameOf fp) (stemOf (basenameOf fp) ++ ".txt".toList)) = _
    rw [hdir, hbase]
  · unfold outputPdfAt
    rw [hlook3]
    show some (joinPath (dirnameOf fp) (stemOf (basenameOf fp) ++ ".pdf".toList)) = _
    rw [hdir, hbase]

theorem c5_single_success_witness :
    statusAt (uploadSingleSys initSys ("scan.jpg".toList) ("scan-1a2b3c4d".toList)
      demoOwner) initSys.next = some St.queued ∧
    statusAt (processStartSys (uploadSingleSys initSys ("scan.jpg".toList)
      ("scan-1a2b3c4d".toList) demoOwner) initSys.next
      (singleFilePath demoOwner ("scan-1a2b3c4d".toList) ("scan.jpg".toList)))
      initSys.next = some St.processing ∧
    statusAt (processFinishSuccessSys
      (processStartSys (uploadSingleSys initSys ("scan.jpg".toList)
        ("scan-1a2b3c4d".toList) demoOwner) initSys.next
        (singleFilePath demoOwner ("scan-1a2b3c4d".toList) ("scan.jpg".toList)))
      initSys.next
      (singleFilePath demoOwner ("scan-1a2b3c4d".toList) ("scan.jpg".toList)))
      initSys.next = some St.completed ∧
    outputTxtAt (processFinishSuccessSys
      (processStartSys (uploadSingleSys initSys ("scan.jpg".toList)
        ("scan-1a2b3c4d".toList) demoOwner) initSys.next
        (singleFilePath demoOwner ("scan-1a2b3c4d".toList) ("scan.jpg".toList)))
      initSys.next
      (singleFilePath demoOwner ("scan-1a2b3c4d".toList) ("scan.jpg".toList)))
      initSys.next =
      some (joinPath (joinPath (userDirOf demoOwner) ("scan-1a2b3c4d".toList))
        (stemOf ("scan.jpg".toList) ++ ".txt".toList)) ∧
    outputPdfAt (processFinishSuccessSys
      (processStartSys (uploadSingleSys initSys ("scan.jpg".toList)
        ("scan-1a2b3c4d".toList) demoOwner) initSys.next
        (singleFilePath demoOwner ("scan-1a2b3c4d".toList) ("scan.jpg".toList)))
      initSys.next
      (singleFilePath demoOwner ("scan-1a2b3c4d".toList) ("scan.jpg".toList)))
      initSys.next =
      some (joinPath (joinPath (userDirOf demoOwner) ("scan-1a2b3c4d".toList))
        (stemOf ("scan.jpg".toList) ++ ".pdf".toList)) :=
  c5_single_success initSys Reach.init ("scan.jpg".toList) ("scan-1a2b3c4d".toList) demoOwner
    (by decide) (by decide) (by decide)

/-! ## C4: upload order, `page_order`, and the merge file list -/

theorem mkBatchChildren_map_pageOrder (a pid : Nat) (files : List (List Char))
    (gd ow : List Char) :
    (mkBatchChildren a pid files gd ow).map Doc.pageOrder =
      (List.range files.length).map (fun k => k + 1) := by
  unfold mkBatchChildren
  rw [List.map_map, ← List.enum_map_fst files, List.map_map]
  rfl

theorem mkBatchChildren_map_path (a pid : Nat) (files : List (List Char)) (gd ow : List Char) :
    (mkBatchChildren a pid files gd ow).map (fun c => joinPath (docDirOf c) c.filename) =
      files.map (fun f => joinPath (joinPath (userDirOf ow) gd) f) := by
  unfold mkBatchChildren
  rw [List.map_map]
  conv_rhs => rw [← List.enum_map_snd files, List.map_map]
  apply List.map_congr_left
  intro e _
  rfl

theorem mkBatchChildren_pairwise (a pid : Nat) (files : List (List Char)) (gd ow : List Char) :
    (mkBatchChildren a pid files gd ow).Pairwise
      (fun x y => x.pageOrder ≤ y.pageOrder) := by
  unfold mkBatchChildren
  rw [List.pairwise_map]
  have h1 : (files.enum.map Prod.fst).Pairwise (fun x y => x < y) := by
    rw [List.enum_map_fst]
    exact List.pairwise_lt_range files.length
  have h2 := List.pairwise_map.mp h1
  refine h2.imp ?_
  intro e1 e2 hxy
  show e1.1 + 1 ≤ e2.1 + 1
  omega

theorem insertPO_of_forall_le (c : Doc) (l : List Doc)
    (h : ∀ x ∈ l, c.pageOrder ≤ x.pageOrder) : insertPO c l = c :: l := by
  cases l with
  | nil => rfl
  | cons y ys =>
    unfold insertPO
    rw [if_pos (h y (List.mem_cons_self y ys))]

theorem sortByPageOrder_eq_self (l : List Doc)
    (h : l.Pairwise (fun a b => a.pageOrder ≤ b.pageOrder)) : sortByPageOrder l = l := by
  induction l with
  | nil => rfl
  | cons x xs ih =>
    unfold sortByPageOrder
    rw [ih (List.Pairwise.of_cons h)]
    exact insertPO_of_forall_le x xs (fun y hy => List.rel_of_pairwise_cons h hy)

/-- The children of a freshly uploaded container are exactly the rows the
endpoint created for its files. -/
theorem childrenOf_uploadBatch (s : Sys) (hI : Inv s) (files : List (List Char))
    (gname gdir owner : List Char) :
    childrenOf (uploadBatchSys s files gname gdir owner).docs s.next =
      mkBatchChildren (s.next + 1) s.next files gdir owner := by
  show childrenOf (s.docs ++ mkBatchParent s.next gname gdir owner ::
    mkBatchChildren (s.next + 1) s.next files gdir owner) s.next = _
  rw [childrenOf_append]
  have h1 : childrenOf s.docs s.next = [] := by
    apply childrenOf_eq_nil
    intro d hd hpar
    obtain ⟨Q, hQ, _, _⟩ := hI.parentContainer d hd s.next hpar
    obtain ⟨hQm, hQid⟩ := lookup_mem hQ
    have := hI.idLt Q hQm
    omega
  rw [h1, List.nil_append]
  unfold childrenOf
  rw [List.filter_cons, if_neg (by simp [mkBatchParent])]
  apply List.filter_eq_self.mpr
  intro c hc
  obtain ⟨k, _, _, hpar, _⟩ := mem_mkBatchChildren hc
  simp [hpar]

/-- C4: a grouped upload of `files` assigns `page_order` 1, 2, ..., N to the
children in upload order (main.py 858-882), and the merge job's ordered input
list — the children sorted by `page_order`, resolved through their storage
directories (tasks.py 380-439) — is exactly the uploaded files in upload
order. -/
theorem c4_ordering (s : Sys) (h : Reach s) (files : List (List Char))
    (gname gdir owner : List Char) :
    (childrenOf (uploadBatchSys s files gname gdir owner).docs s.next).map Doc.pageOrder =
      (List.range files.length).map (fun k => k + 1) ∧
    mergeChildPaths (uploadBatchSys s files gname gdir owner).docs s.next =
      files.map (fun f => joinPath (joinPath (userDirOf owner) gdir) f) := by
  have hch := childrenOf_uploadBatch s (reach_inv h) files gname gdir owner
  constructor
  · rw [hch, mkBatchChildren_map_pageOrder]
  · unfold mergeChildPaths
    rw [hch, sortByPageOrder_eq_self _ (mkBatchChildren_pairwise _ _ _ _ _),
      mkBatchChildren_map_path]

theorem c4_ordering_witness :
    (childrenOf (uploadBatchSys initSys demoFiles ("book.pdf".toList) demoDir
      demoOwner).docs initSys.next).map Doc.pageOrder =
      (List.range demoFiles.length).map (fun k => k + 1) ∧
    mergeChildPaths (uploadBatchSys initSys demoFiles ("book.pdf".toList) demoDir
      demoOwner).docs initSys.next =
      demoFiles.map (fun f => joinPath (joinPath (userDirOf demoOwner) demoDir) f) :=
  c4_ordering initSys Reach.init demoFiles ("book.pdf".toList) demoDir demoOwner

/-! ## C3: the identifier-uniquification rewrite (tasks.py 142-159, 323-336) -/

theorem dropWhile_append_stop (p : Char → Bool) (xs : List Char) (c : Char) (ys : List Char)
    (hxs : ∀ x ∈ xs, p x = true) (hc : p c = false) :
    (xs ++ c :: ys).dropWhile p = c :: ys := by
  induction xs with
  | nil =>
    rw [List.nil_append, List.dropWhile_cons, if_neg (by simp [hc])]
  | cons a l ih =>
    rw [List.cons_append, List.dropWhile_cons,
      if_pos (hxs a (List.mem_cons_self a l)),
      ih (fun x hx => hxs x (List.mem_cons_of_mem a hx))]

/-- The characters matched by the regex character class `["\']` in the patterns
of tasks.py 154-156. -/
def isQuoteCh (ch : Char) : Bool := ch == '"' || ch == '\''

/-- The characters matched by the regex class `\d` (ASCII digits). -/
def isDigitCh (ch : Char) : Bool := '0' ≤ ch && ch ≤ '9'

theorem quote_ne_i {ch : Char} (h : isQuoteCh ch = true) : ch ≠ 'i' := by
  intro hEq; subst hEq; exact absurd h (by decide)

theorem quote_not_digit {ch : Char} (h : isQuoteCh ch = true) : isDigitCh ch = false := by
  unfold isQuoteCh at h
  rcases Bool.or_eq_true_iff.mp h with h1 | h1
  · rw [show ch = '"' from by simpa using h1]; decide
  · rw [show ch = '\'' from by simpa using h1]; decide

theorem digit_ne_i {ch : Char} (h : isDigitCh ch = true) : ch ≠ 'i' := by
  intro hEq; subst hEq; exact absurd h (by decide)

/-- One digit of the decimal rendering `str(page_order)`. -/
def digitCh (k : Nat) : Char := Char.ofNat (48 + k % 10)

theorem digitCh_digit (k : Nat) : isDigitCh (digitCh k) = true := by
  unfold digitCh
  have h10 : k % 10 < 10 := Nat.mod_lt _ (by norm_num)
  set m := k % 10 with hm
  interval_cases m <;> decide

/-- The decimal digits of a natural number, most significant first: the model of
Python `str(n)` for a nonnegative `n`. -/
def natDigits (n : Nat) : List Char :=
  if n < 10 then [digitCh n] else natDigits (n / 10) ++ [digitCh (n % 10)]
termination_by n
decreasing_by
  exact Nat.div_lt_self (by omega) (by norm_num)

theorem natDigits_digits (n : Nat) : ∀ ch ∈ natDigits n, isDigitCh ch = true := by
  induction n using Nat.strong_induction_on with
  | _ n ih =>
    rw [natDigits]
    by_cases h : n < 10
    · rw [if_pos h]
      intro ch hch
      rw [List.mem_singleton.mp hch]
      exact digitCh_digit n
    · rw [if_neg h]
      intro ch hch
      rcases List.mem_append.mp hch with h1 | h1
      · exact ih (n / 10) (Nat.div_lt_self (by omega) (by norm_num)) ch h1
      · rw [List.mem_singleton.mp h1]
        exact digitCh_digit (n % 10)

/-- `page_prefix = "p" + str(doc.page_order) + "_"` (tasks.py 143). -/
def pagePrefix (pageOrder : Nat) : List Char := 'p' :: natDigits pageOrder ++ ['_']

theorem pagePrefix_head (n : Nat) : (pagePrefix n).head? = some 'p' := rfl

theorem pagePrefix_ne_i (n : Nat) : ∀ ch ∈ pagePrefix n, ch ≠ 'i' := by
  intro ch hch
  rcases List.mem_cons.mp hch with rfl | h1
  · decide
  · rcases List.mem_append.mp h1 with h2 | h2
    · exact digit_ne_i (natDigits_digits n ch h2)
    · rw [List.mem_singleton.mp h2]; decide

/-- The tail of a match attempt after the opening `id=`, quote, and letter have
been checked: the greedy `\d+` followed by the closing quote class.  Returns
the pieces of the whole match on success (see `tryMatch`). -/
def afterDigits (q x : Char) (rest : List Char) :
    Option (Char × List Char × Char × List Char) :=
  match rest.takeWhile isDigitCh, rest.dropWhile isDigitCh with
  | [], _ => none
  | _ :: _, [] => none
  | d0 :: ds, q2 :: tail =>
    if isQuoteCh q2 then some (q, x :: d0 :: ds, q2, tail) else none

/-- One attempt of the regex `(id=["\'])(x\d+)(["\'])` — with `x` the letter
`'r'` for TextRegion ids or `'l'` for TextLine ids (tasks.py 153-156) — anchored
at the head of `s`.  On success it returns the opening quote, the matched value
(the letter and the digits), the closing quote, and the remainder of the text
after the match.  The greedy `\d+` is `takeWhile`: backtracking never helps
because the character class after it accepts no digit. -/
def tryMatch (letterC : Char) (s : List Char) :
    Option (Char × List Char × Char × List Char) :=
  match s with
  | c1 :: c2 :: c3 :: q :: x :: rest =>
    if c1 == 'i' && c2 == 'd' && c3 == '=' && isQuoteCh q && x == letterC then
      afterDigits q x rest
    else none
  | _ => none

theorem tryMatch_nil (c : Char) : tryMatch c [] = none := rfl

theorem tryMatch_cons5 (c c1 c2 c3 q x : Char) (rest : List Char) :
    tryMatch c (c1 :: c2 :: c3 :: q :: x :: rest) =
      if c1 == 'i' && c2 == 'd' && c3 == '=' && isQuoteCh q && x == c then
        afterDigits q x rest
      else none := rfl

theorem tryMatch_ne_i {x : Char} (c : Char) (xs : List Char) (hx : x ≠ 'i') :
    tryMatch c (x :: xs) = none := by
  rcases xs with _ | ⟨c2, _ | ⟨c3, _ | ⟨c4, _ | ⟨c5, r⟩⟩⟩⟩
  · rfl
  · rfl
  · rfl
  · rfl
  · rw [tryMatch_cons5, if_neg]
    simp [hx]

theorem tryMatch_letter_ne {c' y : Char} (a b d q : Char) (r : List Char) (h : y ≠ c') :
    tryMatch c' (a :: b :: d :: q :: y :: r) = none := by
  rw [tryMatch_cons5, if_neg]
  simp [h]

theorem afterDigits_elim {q x : Char} {r : List Char} {q' : Char} {val : List Char}
    {q2 : Char} {tail : List Char} (h : afterDigits q x r = some (q', val, q2, tail)) :
    q' = q ∧ isQuoteCh q2 = true ∧
    (∃ ds, val = x :: ds ∧ ds ≠ [] ∧ ∀ d ∈ ds, isDigitCh d = true) ∧
    r = (val.tail ++ q2 :: tail) := by
  unfold afterDigits at h
  split at h
  · exact absurd h (by simp)
  · exact absurd h (by simp)
  · rename_i d0 ds q2' tail' htk hdr
    by_cases hq2 : isQuoteCh q2' = true
    · rw [if_pos hq2] at h
      simp only [Option.some.injEq, Prod.mk.injEq] at h
      obtain ⟨hq', hval', hq2', htail'⟩ := h
      refine ⟨hq'.symm, hq2' ▸ hq2, ⟨d0 :: ds, hval'.symm, by simp, ?_⟩, ?_⟩
      · intro d hd
        have hd' : d ∈ r.takeWhile isDigitCh := by rw [htk]; exact hd
        exact List.mem_takeWhile_imp hd'
      · rw [← hval', ← hq2', ← htail']
        show r = (d0 :: ds) ++ q2' :: tail'
        rw [← htk, ← hdr, List.takeWhile_append_dropWhile]
    · rw [if_neg hq2] at h
      exact absurd h (by simp)

theorem tryMatch_some_elim {c : Char} {s : List Char} {q : Char} {val : List Char}
    {q2 : Char} {rest : List Char} (h : tryMatch c s = some (q, val, q2, rest)) :
    isQuoteCh q = true ∧ isQuoteCh q2 = true ∧
    (∃ ds, val = c :: ds ∧ ds ≠ [] ∧ ∀ d ∈ ds, isDigitCh d = true) ∧
    s = 'i' :: 'd' :: '=' :: q :: (val ++ q2 :: rest) := by
  rcases s with _ | ⟨c1, _ | ⟨c2, _ | ⟨c3, _ | ⟨q0, _ | ⟨x, r⟩⟩⟩⟩⟩
  · exact absurd h (by simp [tryMatch_nil])
  · exact absurd h (by rw [show tryMatch c [c1] = none from rfl]; simp)
  · exact absurd h (by rw [show tryMatch c [c1, c2] = none from rfl]; simp)
  · exact absurd h (by rw [show tryMatch c [c1, c2, c3] = none from rfl]; simp)
  · exact absurd h (by rw [show tryMatch c [c1, c2, c3, q0] = none from rfl]; simp)
  · rw [tryMatch_cons5] at h
    by_cases hc : (c1 == 'i' && c2 == 'd' && c3 == '=' && isQuoteCh q0 && (x == c)) = true
    · rw [if_pos hc] at h
      simp only [Bool.and_eq_true, beq_iff_eq] at hc
      obtain ⟨⟨⟨⟨rfl, rfl⟩, rfl⟩, hq0⟩, rfl⟩ := hc
      obtain ⟨rfl, hq2, ⟨ds, hval, hdsne, hdsdig⟩, hr⟩ := afterDigits_elim h
      refine ⟨hq0, hq2, ⟨ds, hval, hdsne, hdsdig⟩, ?_⟩
      rw [hr, hval]
      simp
    · rw [if_neg hc] at h
      exact absurd h (by simp)

theorem tryMatch_some_len {c : Char} {s : List Char} {q : Char} {val : List Char}
    {q2 : Char} {rest : List Char} (h : tryMatch c s = some (q, val, q2, rest)) :
    rest.length < s.length := by
  obtain ⟨-, -, -, hshape⟩ := tryMatch_some_elim h
  rw [hshape]
  simp only [List.length_cons, List.length_append]
  omega

theorem tryMatch_build (c q q2 : Char) (ds tail : List Char)
    (hq : isQuoteCh q = true) (hq2 : isQuoteCh q2 = true)
    (hds : ds ≠ []) (hdig : ∀ d ∈ ds, isDigitCh d = true) :
    tryMatch c ('i' :: 'd' :: '=' :: q :: c :: (ds ++ q2 :: tail)) =
      some (q, c :: ds, q2, tail) := by
  rw [tryMatch_cons5, if_pos (by simp [hq])]
  unfold afterDigits
  rw [takeWhile_append_stop isDigitCh ds q2 tail hdig (quote_not_digit hq2),
    dropWhile_append_stop isDigitCh ds q2 tail hdig (quote_not_digit hq2)]
  rcases ds with _ | ⟨d0, ds'⟩
  · exact absurd rfl hds
  · show (if isQuoteCh q2 then some (q, c :: d0 :: ds', q2, tail) else none) =
      some (q, c :: d0 :: ds', q2, tail)
    rw [if_pos hq2]

/-- The `replace_id` callback (tasks.py 146-151): reproduce the matched text
unchanged when the value already starts with `'p'` (the double-prefixing
guard), otherwise insert the page prefix between the opening quote and the
value. -/
def replaceId (pfx : List Char) (q : Char) (val : List Char) (q2 : Char) : List Char :=
  if val.head? == some 'p' then 'i' :: 'd' :: '=' :: q :: (val ++ [q2])
  else 'i' :: 'd' :: '=' :: q :: (pfx ++ val ++ [q2])

theorem replaceId_head (pfx : List Char) (q : Char) (val : List Char) (q2 : Char) :
    ∃ l, replaceId pfx q val q2 = 'i' :: l := by
  unfold replaceId
  by_cases h : (val.head? == some 'p') = true
  · rw [if_pos h]; exact ⟨_, rfl⟩
  · rw [if_neg h]; exact ⟨_, rfl⟩

/-- One full pass of `re.sub` for the letter `letterC` (tasks.py 154-156): scan
left to right, replace every non-overlapping match through `replaceId`, and
resume scanning after the end of each match. -/
def subPass (letterC : Char) (pfx : List Char) (s : List Char) : List Char :=
  match s with
  | [] => []
  | x :: xs =>
    match h : tryMatch letterC (x :: xs) with
    | some (q, val, q2, rest) => replaceId pfx q val q2 ++ subPass letterC pfx rest
    | none => x :: subPass letterC pfx xs
termination_by s.length
decreasing_by
  · have := tryMatch_some_len h
    simpa using this
  · simp

theorem subPass_nil (c : Char) (pfx : List Char) : subPass c pfx [] = [] := by
  rw [subPass]

theorem subPass_cons_some (c : Char) (pfx : List Char) {x : Char} {xs : List Char}
    {q : Char} {val : List Char} {q2 : Char} {rest : List Char}
    (h : tryMatch c (x :: xs) = some (q, val, q2, rest)) :
    subPass c pfx (x :: xs) = replaceId pfx q val q2 ++ subPass c pfx rest := by
  rw [subPass]
  split
  · rename_i q' val' q2' rest' heq
    rw [h] at heq
    simp only [Option.some.injEq, Prod.mk.injEq] at heq
    obtain ⟨rfl, rfl, rfl, rfl⟩ := heq
    rfl
  · rename_i heq
    rw [h] at heq
    exact absurd heq (by simp)

theorem subPass_cons_none (c : Char) (pfx : List Char) {x : Char} {xs : List Char}
    (h : tryMatch c (x :: xs) = none) :
    subPass c pfx (x :: xs) = x :: subPass c pfx xs := by
  rw [subPass]
  split
  · rename_i q' val' q2' rest' heq
    rw [h] at heq
    exact absurd heq (by simp)
  · rfl




/-- No suffix of `t` matches the letter `c`: scanning `t` with the pass for `c`
can never fire. -/
def NoMatch (c : Char) (t : List Char) : Prop :=
  ∀ u, u <:+ t → tryMatch c u = none

theorem noMatch_nil (c : Char) : NoMatch c [] := by
  intro u hu
  rw [List.suffix_nil.mp hu]
  exact tryMatch_nil c

theorem noMatch_of_suffix {c : Char} {t t' : List Char} (h : t' <:+ t) (hn : NoMatch c t) :
    NoMatch c t' := fun u hu => hn u (hu.trans h)

theorem subPass_eq_self (c : Char) (pfx : List Char) {t : List Char} (h : NoMatch c t) :
    subPass c pfx t = t := by
  induction t with
  | nil => exact subPass_nil c pfx
  | cons x xs ih =>
    rw [subPass_cons_none c pfx (h (x :: xs) (List.suffix_refl _)),
      ih (noMatch_of_suffix (List.suffix_cons x xs) h)]

theorem suffix_append_cases {u a b : List Char} (h : u <:+ a ++ b) :
    u <:+ b ∨ ∃ w, w <:+ a ∧ w ≠ [] ∧ u = w ++ b := by
  induction a with
  | nil => left; simpa using h
  | cons x a' ih =>
    rw [List.cons_append] at h
    rcases List.suffix_cons_iff.mp h with rfl | h'
    · right
      exact ⟨x :: a', List.suffix_refl _, by simp, by rw [List.cons_append]⟩
    · rcases ih h' with h2 | ⟨w, hw, hwne, rfl⟩
      · left; exact h2
      · right; exact ⟨w, hw.trans (List.suffix_cons x a'), hwne, rfl⟩

theorem prefix_reflect (c : Char) (pfx : List Char) :
    ∀ (w t : List Char), (∀ ch ∈ w, ch ≠ 'i') → w <+: subPass c pfx t → w <+: t := by
  intro w
  induction w with
  | nil => intro t _ _; exact List.nil_prefix
  | cons a w2 ih =>
    intro t hw h
    cases t with
    | nil =>
      rw [subPass_nil] at h
      exact absurd (List.prefix_nil.mp h) (by simp)
    | cons x xs =>
      cases htm : tryMatch c (x :: xs) with
      | some quad =>
        obtain ⟨q, val, q2, rest⟩ := quad
        rw [subPass_cons_some c pfx htm] at h
        obtain ⟨l, hl⟩ := replaceId_head pfx q val q2
        rw [hl, List.cons_append] at h
        have ha := (List.cons_prefix_cons.mp h).1
        exact absurd ha (hw a (List.mem_cons_self a w2))
      | none =>
        rw [subPass_cons_none c pfx htm] at h
        obtain ⟨rfl, h2⟩ := List.cons_prefix_cons.mp h
        exact List.cons_prefix_cons.mpr
          ⟨rfl, ih xs (fun ch hch => hw ch (List.mem_cons_of_mem a hch)) h2⟩

theorem noMatch_subPass (c c2 : Char) (pfx : List Char)
    (hci : c ≠ 'i') (hcp : c ≠ 'p') (hc2i : c2 ≠ 'i') (hc2p : c2 ≠ 'p')
    (hpfxh : pfx.head? = some 'p') (hpfxi : ∀ ch ∈ pfx, ch ≠ 'i') :
    ∀ t, (c2 = c ∨ NoMatch c2 t) → NoMatch c2 (subPass c pfx t) := by
  suffices H : ∀ n t, t.length = n → (c2 = c ∨ NoMatch c2 t) →
      NoMatch c2 (subPass c pfx t) by
    intro t hb
    exact H t.length t rfl hb
  intro n
  induction n using Nat.strong_induction_on with
  | _ n ih =>
    intro t hlen hbase
    cases t with
    | nil =>
      rw [subPass_nil]
      exact noMatch_nil c2
    | cons x xs =>
      cases htm : tryMatch c (x :: xs) with
      | none =>
        rw [subPass_cons_none c pfx htm]
        intro u hu
        rcases List.suffix_cons_iff.mp hu with rfl | hu2
        · by_cases hx : x = 'i'
          · subst hx
            cases htm2 : tryMatch c2 ('i' :: subPass c pfx xs) with
            | none => rfl
            | some quad =>
              exfalso
              obtain ⟨q, val, q2, rest⟩ := quad
              obtain ⟨hq, hq2, ⟨ds, hval, hdsne, hdsdig⟩, hshape⟩ := tryMatch_some_elim htm2
              injection hshape with hend htail
              have hpre : ('d' :: '=' :: q :: (val ++ [q2])) <+: subPass c pfx xs := by
                rw [htail]
                refine ⟨rest, ?_⟩
                simp
              have hwne : ∀ ch ∈ ('d' :: '=' :: q :: (val ++ [q2])), ch ≠ 'i' := by
                intro ch hch
                rcases List.mem_cons.mp hch with rfl | hch
                · decide
                rcases List.mem_cons.mp hch with rfl | hch
                · decide
                rcases List.mem_cons.mp hch with rfl | hch
                · exact quote_ne_i hq
                rcases List.mem_append.mp hch with hch | hch
                · rw [hval] at hch
                  rcases List.mem_cons.mp hch with rfl | hch
                  · exact hc2i
                  · exact digit_ne_i (hdsdig ch hch)
                · rw [List.mem_singleton.mp hch]
                  exact quote_ne_i hq2
              obtain ⟨tail0, htail0⟩ :=
                prefix_reflect c pfx ('d' :: '=' :: q :: (val ++ [q2])) xs hwne hpre
              have hxseq : xs = 'd' :: '=' :: q :: (val ++ q2 :: tail0) := by
                rw [← htail0]
                simp
              have hmatch : tryMatch c2 ('i' :: xs) = some (q, val, q2, tail0) := by
                rw [hxseq, hval]
                exact tryMatch_build c2 q q2 ds tail0 hq hq2 hdsne hdsdig
              rcases hbase with rfl | hnm
              · rw [htm] at hmatch
                exact absurd hmatch (by simp)
              · rw [hnm ('i' :: xs) (List.suffix_refl _)] at hmatch
                exact absurd hmatch (by simp)
          · exact tryMatch_ne_i c2 (subPass c pfx xs) hx
        · have hlt : xs.length < n := by
            rw [← hlen]; simp
          have hbase2 : c2 = c ∨ NoMatch c2 xs := by
            rcases hbase with rfl | hnm
            · left; rfl
            · right; exact noMatch_of_suffix (List.suffix_cons x xs) hnm
          exact ih xs.length hlt xs rfl hbase2 u hu2
      | some quad =>
        obtain ⟨q, val, q2, rest⟩ := quad
        rw [subPass_cons_some c pfx htm]
        obtain ⟨hq, hq2, ⟨ds, hval, hdsne, hdsdig⟩, hshape⟩ := tryMatch_some_elim htm
        have hrep : replaceId pfx q val q2 =
            'i' :: 'd' :: '=' :: q :: (pfx ++ val ++ [q2]) := by
          unfold replaceId
          rw [if_neg, hval]
          rw [hval]
          simp only [List.head?_cons, beq_iff_eq, Option.some.injEq]
          exact hcp
        rw [hrep]
        intro u hu
        rcases suffix_append_cases hu with hu2 | ⟨w, hw, hwne, rfl⟩
        · have hlt : rest.length < n := by
            rw [← hlen, hshape]
            simp only [List.length_cons, List.length_append]
            omega
          have hbase2 : c2 = c ∨ NoMatch c2 rest := by
            rcases hbase with rfl | hnm
            · left; rfl
            · right
              refine noMatch_of_suffix ?_ hnm
              rw [hshape]
              refine ⟨'i' :: 'd' :: '=' :: q :: (val ++ [q2]), ?_⟩
              simp
          exact ih rest.length hlt rest rfl hbase2 u hu2
        · rcases List.suffix_cons_iff.mp hw with rfl | hw2
          · obtain ⟨pl, hpl⟩ : ∃ pl, pfx = 'p' :: pl := by
              cases pfx with
              | nil => exact absurd hpfxh (by simp)
              | cons p0 pl =>
                refine ⟨pl, ?_⟩
                rw [show p0 = 'p' from by simpa using hpfxh]
            subst hpl
            show tryMatch c2
              ('i' :: 'd' :: '=' :: q :: 'p' ::
                ((pl ++ val ++ [q2]) ++ subPass c ('p' :: pl) rest)) = none
            exact tryMatch_letter_ne 'i' 'd' '=' q _ (Ne.symm hc2p)
          · rcases w with _ | ⟨ch, w2⟩
            · exact absurd rfl hwne
            · have hch : ch ∈ ('d' :: '=' :: q :: (pfx ++ val ++ [q2])) :=
                hw2.subset (List.mem_cons_self ch w2)
              have hchne : ch ≠ 'i' := by
                rcases List.mem_cons.mp hch with rfl | hch
                · decide
                rcases List.mem_cons.mp hch with rfl | hch
                · decide
                rcases List.mem_cons.mp hch with rfl | hch
                · exact quote_ne_i hq
                rcases List.mem_append.mp hch with hch | hch
                · rcases List.mem_append.mp hch with hch | hch
                  · exact hpfxi ch hch
                  · rw [hval] at hch
                    rcases List.mem_cons.mp hch with rfl | hch
                    · exact hci
                    · exact digit_ne_i (hdsdig ch hch)
                · rw [List.mem_singleton.mp hch]
                  exact quote_ne_i hq2
              show tryMatch c2 (ch :: (w2 ++ subPass c pfx rest)) = none
              exact tryMatch_ne_i c2 (w2 ++ subPass c pfx rest) hchne

/-- The identifier-uniquification rewrite of the XML content (tasks.py 142-156,
also 323-333): first the TextRegion pass (ids `r` + digits), then the TextLine
pass (ids `l` + digits), both inserting the prefix
`p` + str(page_order) + `_`. -/
def uniquifyIds (pageOrder : Nat) (content : List Char) : List Char :=
  subPass 'l' (pagePrefix pageOrder) (subPass 'r' (pagePrefix pageOrder) content)

/-- C3: for every markup text and every page_order value, applying the
identifier-uniquification rewrite twice produces output identical to applying
it once. -/
theorem c3_uniquify_idempotent (pageOrder : Nat) (content : List Char) :
    uniquifyIds pageOrder (uniquifyIds pageOrder content) =
      uniquifyIds pageOrder content := by
  unfold uniquifyIds
  have hh := pagePrefix_head pageOrder
  have hi := pagePrefix_ne_i pageOrder
  have h1 : NoMatch 'r' (subPass 'r' (pagePrefix pageOrder) content) :=
    noMatch_subPass 'r' 'r' _ (by decide) (by decide) (by decide) (by decide)
      hh hi content (Or.inl rfl)
  have h2 : NoMatch 'r'
      (subPass 'l' (pagePrefix pageOrder) (subPass 'r' (pagePrefix pageOrder) content)) :=
    noMatch_subPass 'l' 'r' _ (by decide) (by decide) (by decide) (by decide)
      hh hi _ (Or.inr h1)
  have h4 : NoMatch 'l'
      (subPass 'l' (pagePrefix pageOrder) (subPass 'r' (pagePrefix pageOrder) content)) :=
    noMatch_subPass 'l' 'l' _ (by decide) (by decide) (by decide) (by decide)
      hh hi _ (Or.inl rfl)
  rw [subPass_eq_self 'r' _ h2, subPass_eq_self 'l' _ h4]

end Subscript
